import Mathlib

/-!
Verification development for the wireQ in-process queue simulation
(`test/mock_wireq.py`, class `MockQueue`, and
`test/local_server/wireq_fake_server.py`, class `RequestHandler`; the two
copies implement identical queue logic and differ only in the transport
wrapper and in the default configuration constants, so a single embedding
parameterised by the configuration covers both variants).

Modelling choices, stated once here:
- item payloads are modelled by an opaque type `α` with decidable equality;
  Python dict equality on payload documents becomes Lean equality on `α`;
- `time.time()` is modelled by a `now : Nat` argument supplied per call
  (the source samples the clock a few times inside one call; all samples
  belong to the same call and the branch conditions only compare
  differences, so a single per-call clock value is faithful);
- Python float subtraction `current_time - ts` is modelled by truncated
  `Nat` subtraction; for the comparisons `> duration` and `< 60` the two
  agree whenever `now ≥ ts`, and a negative Python difference behaves
  exactly like the truncated-to-zero difference in both comparisons;
- `uuid.uuid4()` receipts are modelled by a fresh-counter field
  `nextReceipt`; the source relies on receipts being unique;
- `list.remove(x)` removes the first element equal to `x` and raises
  `ValueError` when no element is equal; this is modelled by the partial
  function `pyRemove`, and every engine step that can raise returns
  `Option` (`none` = the Python call raises and aborts).
-/

/-- A wireQ queue element, the dict `{'entry': ..., 'visible': ...}` built by
`add_to_queue`. -/

structure Entry (α : Type) where
  entry : α
  visible : Bool
deriving DecidableEq, Repr

/-- A hidden-queue element, the dict
`{'entry': ..., 'receipt': ..., 'timestamp': ...}` built by
`get_first_x_visible_items`. -/

structure HEntry (α : Type) where
  entry : α
  receipt : Nat
  timestamp : Nat
deriving DecidableEq, Repr

/-- The full state of the simulated wireQ: the five mutable lists of
`MockQueue` / `RequestHandler` plus the configuration constants, plus the
`nextReceipt` counter modelling `uuid4` freshness. -/

structure MockQueue (α : Type) where
  queue : List (Entry α)
  hiddenQueue : List (HEntry α)
  deletedUrls : List Nat
  requestTimestamps : List Nat
  timedOutReceipts : List Nat
  nextReceipt : Nat
  maxItemsReturned : Nat
  retryAfter : Nat
  retryAfterMoreData : Nat
  retryAfterTooManyRequests : Nat
  maxRequestsPerMinute : Nat
  receiptLifetimeDuration : Nat
deriving DecidableEq, Repr

/-- A fresh engine state with the given configuration
(`maxItemsReturned`, `retryAfter`, `retryAfterMoreData`,
`retryAfterTooManyRequests`, `maxRequestsPerMinute`,
`receiptLifetimeDuration`). -/

def MockQueue.init (α : Type) (mx ra ramd ratmr mrpm rld : Nat) : MockQueue α :=
  ⟨[], [], [], [], [], 0, mx, ra, ramd, ratmr, mrpm, rld⟩

/-- Python `list.remove x`: drop the first element equal to `x`; `none`
models the `ValueError` raised when no element is equal. -/

def pyRemove {β : Type} [DecidableEq β] (x : β) : List β → Option (List β)
  | [] => none
  | y :: rest => if y = x then some rest else (pyRemove x rest).map (y :: ·)

/-- The list comprehension `[entry.get('entry') for entry in self.queue if
entry.get('visible')]` of `show_visible_queue`. -/

def visibleItems {α : Type} (s : MockQueue α) : List α :=
  (s.queue.filter (·.visible)).map (·.entry)

/-- Source `length_visible_queue`. -/

def lengthVisibleQueue {α : Type} (s : MockQueue α) : Nat :=
  (s.queue.filter (·.visible)).length

/-- The inner `for entry in self.queue` loop of `check_hidden_entry_lifetime`
for one timed-out hidden entry `h`: every queue element whose payload equals
the payload of `h` is flipped to visible, and at each such match `h` is
removed from the hidden queue (raising, i.e. `none`, at a second match,
since `h` is then already gone) and its receipt is appended to the
timed-out list. -/

def reclaimScan {α : Type} [DecidableEq α] (h : HEntry α) :
    List (Entry α) → List (HEntry α) → List Nat →
    Option (List (Entry α) × List (HEntry α) × List Nat)
  | [], hq, t => some ([], hq, t)
  | e :: rest, hq, t =>
    if e.entry = h.entry then
      (pyRemove h hq).bind (fun hq₁ =>
        (reclaimScan h rest hq₁ (t ++ [h.receipt])).map
          (fun r => (⟨e.entry, true⟩ :: r.1, r.2.1, r.2.2)))
    else
      (reclaimScan h rest hq t).map (fun r => (e :: r.1, r.2.1, r.2.2))

/-- The outer `for h_entry in self.hidden_queue[:]` loop of
`check_hidden_entry_lifetime`, iterating over the snapshot while the live
state evolves. -/

def checkHiddenGo {α : Type} [DecidableEq α] (now : Nat) :
    List (HEntry α) → MockQueue α → Option (MockQueue α)
  | [], st => some st
  | h :: hs, st =>
    if now - h.timestamp > st.receiptLifetimeDuration then
      (reclaimScan h st.queue st.hiddenQueue st.timedOutReceipts).bind
        (fun r =>
          checkHiddenGo now hs
            { st with queue := r.1, hiddenQueue := r.2.1,
                      timedOutReceipts := r.2.2 })
    else
      checkHiddenGo now hs st

/-- Source `check_hidden_entry_lifetime` (expired-lease reclamation). -/

def checkHiddenEntryLifetime {α : Type} [DecidableEq α] (now : Nat)
    (s : MockQueue α) : Option (MockQueue α) :=
  checkHiddenGo now s.hiddenQueue s

/-- The `for item in first_x_visible_items: ... self.queue.remove(item)` loop
of `dequeue_first_x_visible_items`, performed in list order. -/

def removeAllEntries {α : Type} [DecidableEq α] :
    List (Entry α) → List (Entry α) → Option (List (Entry α))
  | q, [] => some q
  | q, x :: xs => (pyRemove x q).bind (fun q₁ => removeAllEntries q₁ xs)

/-- Source `dequeue_first_x_visible_items`: select the first
`numberOfItems` visible entries, remove each from the queue by value,
append one request timestamp per removed item, and return the payloads. -/

def dequeueFirstXVisibleItems {α : Type} [DecidableEq α] (now numberOfItems : Nat)
    (s : MockQueue α) : Option (MockQueue α × List α) :=
  let sel := (s.queue.filter (·.visible)).take numberOfItems
  (removeAllEntries s.queue sel).map (fun q₁ =>
    ({ s with
        queue := q₁,
        requestTimestamps :=
          s.requestTimestamps ++ List.replicate sel.length now },
     sel.map (·.entry)))

/-- The `item['visible'] = False` mutation of `get_first_x_visible_items`:
flip the first `n` visible entries of the queue (positionally, as the
source mutates the selected objects in place) and return the new queue
together with the flipped payloads in order. -/

def markFirstVisible {α : Type} : Nat → List (Entry α) → List (Entry α) × List α
  | _, [] => ([], [])
  | 0, l => (l, [])
  | n + 1, e :: rest =>
    if e.visible then
      let p := markFirstVisible n rest
      (⟨e.entry, false⟩ :: p.1, e.entry :: p.2)
    else
      let p := markFirstVisible (n + 1) rest
      (e :: p.1, p.2)

/-- Source `get_first_x_visible_items`: flip the first `numberOfItems`
visible entries to invisible, mint one fresh receipt per item, append the
matching hidden-queue records and one request timestamp per item, and
return the payload–receipt pairs (the source returns for each item a
deep copy of the payload dict with the receipt written under the
`_wireq_receipt` key; the annotated copy is modelled by the pair, and its
concrete dict form is recovered by `annotateEntry` below). -/

def getFirstXVisibleItems {α : Type} (now numberOfItems : Nat)
    (s : MockQueue α) : MockQueue α × List (α × Nat) :=
  let p := markFirstVisible numberOfItems s.queue
  let k := p.2.length
  let pairs := p.2.zip ((List.range k).map (s.nextReceipt + ·))
  ({ s with
      queue := p.1,
      hiddenQueue :=
        s.hiddenQueue ++ pairs.map (fun pr => ⟨pr.1, pr.2, now⟩),
      requestTimestamps := s.requestTimestamps ++ List.replicate k now,
      nextReceipt := s.nextReceipt + k },
   pairs)

/-- Source `add_to_queue`: append each item as a visible entry. -/

def addToQueue {α : Type} (s : MockQueue α) (entries : List α) : MockQueue α :=
  { s with queue := s.queue ++ entries.map (⟨·, true⟩) }

/-- Source `too_many_requests`: prune the request timestamps to the
trailing 60-second window and report whether the pruned count strictly
exceeds `max_requests_per_minute`. -/

def tooManyRequests {α : Type} (now : Nat) (s : MockQueue α) :
    MockQueue α × Bool :=
  let valid := s.requestTimestamps.filter (fun ts => decide (now - ts < 60))
  ({ s with requestTimestamps := valid },
   decide (valid.length > s.maxRequestsPerMinute))

/-- The number of recorded request timestamps inside the trailing
60-second window ending at `now`. -/

def windowCount {α : Type} (now : Nat) (s : MockQueue α) : Nat :=
  (s.requestTimestamps.filter (fun ts => decide (now - ts < 60))).length

/-- An HTTP-level response of a read call: status, entries of the JSON
body, and the value of the `retry-after` header. -/

structure WireqResponse (β : Type) where
  status : Nat
  entries : List β
  retryAfter : Nat
deriving DecidableEq, Repr

/-- Source `wireq_dequeue_operation`: reclamation, visible-length snapshot,
rate-limit check, then either the 429 rejection or the destructive read,
with the `retry-after` header chosen by comparing the pre-removal visible
length against `max_items_returned`. -/

def wireqDequeueOperation {α : Type} [DecidableEq α] (now : Nat)
    (s : MockQueue α) : Option (MockQueue α × WireqResponse α) :=
  (checkHiddenEntryLifetime now s).bind (fun s₁ =>
    let lenVis := lengthVisibleQueue s₁
    let p := tooManyRequests now s₁
    if p.2 then
      some (p.1, ⟨429, [], p.1.retryAfterTooManyRequests⟩)
    else if lenVis ≤ p.1.maxItemsReturned then
      (dequeueFirstXVisibleItems now p.1.maxItemsReturned p.1).map
        (fun r => (r.1, ⟨200, r.2, r.1.retryAfter⟩))
    else
      (dequeueFirstXVisibleItems now p.1.maxItemsReturned p.1).map
        (fun r => (r.1, ⟨200, r.2, r.1.retryAfterMoreData⟩)))

/-- Source `wireq_get_operation`: identical shape to the dequeue operation
but leasing instead of removing. -/

def wireqGetOperation {α : Type} [DecidableEq α] (now : Nat)
    (s : MockQueue α) : Option (MockQueue α × WireqResponse (α × Nat)) :=
  (checkHiddenEntryLifetime now s).bind (fun s₁ =>
    let lenVis := lengthVisibleQueue s₁
    let p := tooManyRequests now s₁
    if p.2 then
      some (p.1, ⟨429, [], p.1.retryAfterTooManyRequests⟩)
    else if lenVis ≤ p.1.maxItemsReturned then
      let r := getFirstXVisibleItems now p.1.maxItemsReturned p.1
      some (r.1, ⟨200, r.2, r.1.retryAfter⟩)
    else
      let r := getFirstXVisibleItems now p.1.maxItemsReturned p.1
      some (r.1, ⟨200, r.2, r.1.retryAfterMoreData⟩))

/-- The four classified outcomes of the delete operation, one per branch
of `wireq_delete_operation`; the transport maps them to HTTP statuses via
`statusOf`. -/

inductive DeleteOutcome where
  | alreadyDeleted
  | expired
  | unknown
  | success
deriving DecidableEq, Repr

/-- The HTTP status the source sends for each delete outcome. -/

def statusOf : DeleteOutcome → Nat
  | .alreadyDeleted => 410
  | .expired => 410
  | .unknown => 404
  | .success => 204

/-- The classification part of `wireq_delete_operation`, evaluated on the
already-reclaimed state: deleted-set first, then expired-set, then
unknown receipt, else redeem the lease (removing the formatted element
`{'entry': ..., 'visible': False}` from the queue by value, removing the
hidden entry, and recording the key as deleted). -/

def deleteClassified {α : Type} [DecidableEq α] (key : Nat)
    (s₁ : MockQueue α) : Option (MockQueue α × DeleteOutcome) :=
  if key ∈ s₁.deletedUrls then some (s₁, .alreadyDeleted)
  else if key ∈ s₁.timedOutReceipts then some (s₁, .expired)
  else if key ∉ s₁.hiddenQueue.map (·.receipt) then some (s₁, .unknown)
  else
    (s₁.hiddenQueue.find? (fun h => decide (h.receipt = key))).bind (fun h =>
      (pyRemove (⟨h.entry, false⟩ : Entry α) s₁.queue).bind (fun q₁ =>
        (pyRemove h s₁.hiddenQueue).map (fun hq₁ =>
          ({ s₁ with
              queue := q₁,
              hiddenQueue := hq₁,
              deletedUrls := s₁.deletedUrls ++ [key] },
           .success))))

/-- Source `wireq_delete_operation`: reclamation first, then the
four-way classification. -/

def wireqDeleteOperation {α : Type} [DecidableEq α] (now key : Nat)
    (s : MockQueue α) : Option (MockQueue α × DeleteOutcome) :=
  (checkHiddenEntryLifetime now s).bind (fun s₁ => deleteClassified key s₁)

/-- One external operation on the engine, with its call-time clock value. -/

inductive Op (α : Type) where
  | enqueue (items : List α)
  | get (now : Nat)
  | dequeue (now : Nat)
  | delete (now : Nat) (key : Nat)
deriving DecidableEq, Repr

/-- One engine step; the result carries the payloads returned to the
caller by a read and the number of items permanently removed from the
queue by this step. -/

def step {α : Type} [DecidableEq α] :
    Op α → MockQueue α → Option (MockQueue α × List α × Nat)
  | .enqueue items, s => some (addToQueue s items, [], 0)
  | .get now, s =>
    (wireqGetOperation now s).map
      (fun r => (r.1, r.2.entries.map (·.1), 0))
  | .dequeue now, s =>
    (wireqDequeueOperation now s).map
      (fun r => (r.1, r.2.entries, r.2.entries.length))
  | .delete now key, s =>
    (wireqDeleteOperation now key s).map
      (fun r => (r.1, [], if r.2 = .success then 1 else 0))

/-- Run a sequence of operations, collecting the per-step returned payload
lists and the total number of permanently removed items. -/

def run {α : Type} [DecidableEq α] :
    MockQueue α → List (Op α) → Option (MockQueue α × List (List α) × Nat)
  | s, [] => some (s, [], 0)
  | s, op :: ops =>
    (step op s).bind (fun r =>
      (run r.1 ops).map (fun r₂ => (r₂.1, r.2.1 :: r₂.2.1, r.2.2 + r₂.2.2)))

/-- The concatenation of all item lists passed to `Enqueue` in an
operation sequence. -/

def allEnqueued {α : Type} : List (Op α) → List α
  | [] => []
  | .enqueue items :: ops => items ++ allEnqueued ops
  | _ :: ops => allEnqueued ops

/-- The state components that the reclamation loop never touches. -/

def frameRest {α : Type} (s : MockQueue α) :
    List Nat × List Nat × Nat × Nat × Nat × Nat × Nat × Nat × Nat :=
  (s.deletedUrls, s.requestTimestamps, s.nextReceipt, s.maxItemsReturned,
   s.retryAfter, s.retryAfterMoreData, s.retryAfterTooManyRequests,
   s.maxRequestsPerMinute, s.receiptLifetimeDuration)

/-- The items submitted by an operation (empty for non-enqueue calls). -/

def opItems {α : Type} : Op α → List α
  | .enqueue items => items
  | _ => []

/-- Every active lease references a queue entry holding its payload in the
invisible state; this is exactly the element
`{'entry': p, 'visible': False}` that the delete success branch removes. -/

def leasesBacked {α : Type} (s : MockQueue α) : Prop :=
  ∀ h ∈ s.hiddenQueue, (⟨h.entry, false⟩ : Entry α) ∈ s.queue

instance {α : Type} [DecidableEq α] (s : MockQueue α) :
    Decidable (leasesBacked s) := by
  unfold leasesBacked
  infer_instance

def c6run : MockQueue Nat × List (List Nat) × Nat :=
  (run (MockQueue.init Nat 10 100 10 360 30 200)
    [.enqueue [1, 2, 3], .dequeue 0, .get 0]).getD
    (MockQueue.init Nat 10 100 10 360 30 200, [], 0)

def sC1 : MockQueue Nat :=
  ((run (MockQueue.init Nat 10 100 10 360 30 200)
    [.enqueue [5], .get 0]).getD
    (MockQueue.init Nat 10 100 10 360 30 200, [], 0)).1

def s20 : MockQueue Nat :=
  addToQueue (MockQueue.init Nat 10 100 10 360 30 200) (List.range 20)

def c4pair1 : MockQueue Nat × WireqResponse Nat :=
  (wireqDequeueOperation 0 s20).getD (s20, ⟨0, [], 0⟩)

def c4pair2 : MockQueue Nat × WireqResponse Nat :=
  (wireqDequeueOperation 0 c4pair1.1).getD (s20, ⟨0, [], 0⟩)

def sTs3 : MockQueue Nat :=
  addToQueue (MockQueue.init Nat 10 100 10 360 30 200) [1, 2, 3]

def c10res : MockQueue Nat × WireqResponse Nat :=
  (wireqDequeueOperation 0 sTs3).getD (sTs3, ⟨0, [], 0⟩)

def sC9 : MockQueue Nat :=
  ((run (MockQueue.init Nat 10 100 10 360 0 5)
    [.enqueue [1], .get 0]).getD
    (MockQueue.init Nat 10 100 10 360 0 5, [], 0)).1

def sC9r : MockQueue Nat := (checkHiddenEntryLifetime 10 sC9).getD sC9

def sC3 : MockQueue Nat :=
  ((run (MockQueue.init Nat 10 100 10 360 1 200)
    [.enqueue [7], .dequeue 0]).getD
    (MockQueue.init Nat 10 100 10 360 1 200, [], 0)).1

def sC2w : MockQueue Nat :=
  ((run (MockQueue.init Nat 10 100 10 360 30 200)
    [.enqueue [5], .get 0]).getD
    (MockQueue.init Nat 10 100 10 360 30 200, [], 0)).1

def sC2dup : MockQueue Nat :=
  ((run (MockQueue.init Nat 10 100 10 360 30 200)
    [.enqueue [1, 1], .get 0]).getD
    (MockQueue.init Nat 10 100 10 360 30 200, [], 0)).1

def c5run : MockQueue Nat × List (List Nat) × Nat :=
  (run (addToQueue (MockQueue.init Nat 2 100 10 360 30 200) [1, 2, 3])
    [.dequeue 0, .get 0, .dequeue 0]).getD
    (MockQueue.init Nat 2 100 10 360 30 200, [], 0)

/-- A JSON-ish payload document, modelled as an insertion-ordered
association list with pairwise-distinct keys (a Python dict whose values
are opaque, modelled as naturals; the receipt string is stored as its
receipt number). -/

abbrev Item : Type := List (String × Nat)

/-- The annotation key written by `get_first_x_visible_items`. -/

def wireqReceiptKey : String := "_wireq_receipt"

/-- Python `copied_entry['_wireq_receipt'] = hashed` on a dict: update the
key in place when it is present, append it at the end otherwise. -/

def setKey (d : Item) (k : String) (v : Nat) : Item :=
  if (d.lookup k).isSome then
    d.map (fun kv => if kv.1 = k then (k, v) else kv)
  else d ++ [(k, v)]

/-- The deep copy of the payload annotated with its receipt, as built by
`get_first_x_visible_items`. -/

def annotateEntry (payload : Item) (receipt : Nat) : Item :=
  setKey payload wireqReceiptKey receipt

/-- The concrete JSON documents a get call sends to the caller: each
returned payload–receipt pair rendered as the annotated dict copy. -/

def wireqGetReturnedDocs (now : Nat) (s : MockQueue Item) :
    Option (List Item) :=
  (wireqGetOperation now s).map
    (fun r => r.2.entries.map (fun pr => annotateEntry pr.1 pr.2))

def pC7 : Item := [(wireqReceiptKey, 99)]

def sC7 : MockQueue Item :=
  addToQueue (MockQueue.init Item 10 100 10 360 30 200) [pC7]

def sC7ok : MockQueue Item :=
  addToQueue (MockQueue.init Item 10 100 10 360 30 200)
    [[("urn", 7)], [("urn", 8)]]

/-- The well-formedness invariant maintained by the engine on runs whose
enqueued payloads are pairwise distinct: queue payloads, lease receipts
and lease payloads are each pairwise distinct, every receipt was minted
below the freshness counter, every active lease is backed by the queue
entry `{'entry': p, 'visible': False}` holding its payload, and every
invisible queue entry is referenced by an active lease. -/

structure QueueInv {α : Type} (s : MockQueue α) : Prop where
  qnodup : (s.queue.map (·.entry)).Nodup
  rnodup : (s.hiddenQueue.map (·.receipt)).Nodup
  hnodup : (s.hiddenQueue.map (·.entry)).Nodup
  rbound : ∀ h ∈ s.hiddenQueue, h.receipt < s.nextReceipt
  lease_entry : ∀ h ∈ s.hiddenQueue, (⟨h.entry, false⟩ : Entry α) ∈ s.queue
  invis_lease : ∀ e ∈ s.queue, e.visible = false →
    ∃ h ∈ s.hiddenQueue, h.entry = e.entry

def c8ops : List (Op Nat) := [.enqueue [1, 2, 3], .get 0, .delete 0 1]

def c8res : MockQueue Nat × List (List Nat) × Nat :=
  (run (MockQueue.init Nat 10 100 10 360 30 200) c8ops).getD
    (MockQueue.init Nat 10 100 10 360 30 200, [], 0)

/-! ### Lemmas and claim theorems -/

/-! ### Basic lemmas about `pyRemove` -/

theorem pyRemove_eq_none {β : Type} [DecidableEq β] {x : β} :
    ∀ {l : List β}, x ∉ l → pyRemove x l = none := by
  intro l
  induction l with
  | nil => intro _; rfl
  | cons y rest ih =>
    intro hx
    have hyx : y ≠ x := fun h => hx (h ▸ List.mem_cons_self y rest)
    have hxr : x ∉ rest := fun h => hx (List.mem_cons_of_mem _ h)
    simp [pyRemove, hyx, ih hxr]

theorem pyRemove_shape {β : Type} [DecidableEq β] {x : β} :
    ∀ {l l' : List β}, pyRemove x l = some l' →
      ∃ l₁ l₂, l = l₁ ++ x :: l₂ ∧ l' = l₁ ++ l₂ ∧ x ∉ l₁ := by
  intro l
  induction l with
  | nil => intro l' h; simp [pyRemove] at h
  | cons y rest ih =>
    intro l' h
    by_cases hxy : y = x
    · subst hxy
      simp [pyRemove] at h
      exact ⟨[], rest, by simp, by simp [h.symm], by simp⟩
    · simp [pyRemove, hxy] at h
      obtain ⟨r, hr, hl'⟩ := h
      obtain ⟨l₁, l₂, heq, hres, hnm⟩ := ih hr
      refine ⟨y :: l₁, l₂, by simp [heq], by simp [hl'.symm, hres], ?_⟩
      intro hc
      rcases List.mem_cons.mp hc with h1 | h1
      · exact hxy h1.symm
      · exact hnm h1

theorem pyRemove_of_mem {β : Type} [DecidableEq β] {x : β} {l : List β}
    (hx : x ∈ l) : ∃ l', pyRemove x l = some l' := by
  cases hv : pyRemove x l with
  | none =>
    exfalso
    induction l with
    | nil => simp at hx
    | cons y rest ih =>
      by_cases hxy : y = x
      · subst hxy; simp [pyRemove] at hv
      · simp [pyRemove, hxy] at hv
        rcases List.mem_cons.mp hx with h1 | h1
        · exact hxy h1.symm
        · exact ih h1 hv
  | some l' => exact ⟨l', rfl⟩

theorem pyRemove_length {β : Type} [DecidableEq β] {x : β} {l l' : List β}
    (h : pyRemove x l = some l') : l'.length + 1 = l.length := by
  obtain ⟨l₁, l₂, heq, hres, -⟩ := pyRemove_shape h
  subst heq; subst hres; simp; omega

theorem pyRemove_subset {β : Type} [DecidableEq β] {x : β} {l l' : List β}
    (h : pyRemove x l = some l') : ∀ y ∈ l', y ∈ l := by
  obtain ⟨l₁, l₂, heq, hres, -⟩ := pyRemove_shape h
  subst heq; subst hres
  intro y hy
  rcases List.mem_append.mp hy with h1 | h1
  · exact List.mem_append.mpr (Or.inl h1)
  · exact List.mem_append.mpr (Or.inr (List.mem_cons_of_mem _ h1))

theorem pyRemove_mem_of_ne {β : Type} [DecidableEq β] {x y : β} {l l' : List β}
    (h : pyRemove x l = some l') (hne : y ≠ x) : y ∈ l' ↔ y ∈ l := by
  obtain ⟨l₁, l₂, heq, hres, -⟩ := pyRemove_shape h
  subst heq; subst hres
  simp [hne]

theorem pyRemove_filter_false {β : Type} [DecidableEq β] {x : β} {l l' : List β}
    {P : β → Bool} (h : pyRemove x l = some l') (hP : P x = false) :
    l'.filter P = l.filter P := by
  obtain ⟨l₁, l₂, heq, hres, -⟩ := pyRemove_shape h
  subst heq; subst hres
  simp [List.filter_append, hP]

theorem pyRemove_not_mem_self {β : Type} [DecidableEq β] {x : β} {l l' : List β}
    (h : pyRemove x l = some l') (hnd : l.Nodup) : x ∉ l' := by
  obtain ⟨l₁, l₂, heq, hres, hnm⟩ := pyRemove_shape h
  subst heq; subst hres
  intro hc
  rcases List.mem_append.mp hc with h1 | h1
  · exact hnm h1
  · have := List.Nodup.not_mem (List.Nodup.of_append_right hnd)
    exact this h1

theorem pyRemove_map {β γ : Type} [DecidableEq β] {x : β} {l l' : List β}
    (f : β → γ) (h : pyRemove x l = some l') :
    ∃ m₁ m₂, l.map f = m₁ ++ f x :: m₂ ∧ l'.map f = m₁ ++ m₂ := by
  obtain ⟨l₁, l₂, heq, hres, -⟩ := pyRemove_shape h
  subst heq; subst hres
  exact ⟨l₁.map f, l₂.map f, by simp, by simp⟩

theorem nodup_of_append_cons_append {γ : Type} {a : γ} {m₁ m₂ : List γ}
    (h : (m₁ ++ a :: m₂).Nodup) : (m₁ ++ m₂).Nodup := by
  have hsub : List.Sublist (m₁ ++ m₂) (m₁ ++ a :: m₂) :=
    List.Sublist.append_left (List.sublist_cons_self a m₂) m₁
  exact List.Nodup.sublist hsub h

/-! ### Lemmas about selecting and removing the first visible entries -/

theorem filter_decomp_of_head {α : Type} [DecidableEq α] {P : Entry α → Bool}
    {q l₁ l₂ : List (Entry α)} {x : Entry α} {t : List (Entry α)}
    (hf : q.filter P = x :: t) (heq : q = l₁ ++ x :: l₂) (hnm : x ∉ l₁) :
    l₁.filter P = [] ∧ l₂.filter P = t := by
  have hPx : P x = true := by
    have hx : x ∈ q.filter P := by rw [hf]; exact List.mem_cons_self _ _
    exact (List.mem_filter.mp hx).2
  rw [heq, List.filter_append, List.filter_cons, if_pos hPx] at hf
  cases hl : l₁.filter P with
  | nil =>
    rw [hl] at hf
    simp at hf
    exact ⟨rfl, hf⟩
  | cons z zs =>
    exfalso
    rw [hl] at hf
    have hz : z = x := by
      have hh := congrArg List.head? hf
      simp at hh
      exact hh
    have hzl : z ∈ l₁ := by
      have : z ∈ l₁.filter P := by rw [hl]; exact List.mem_cons_self z zs
      exact (List.mem_filter.mp this).1
    exact hnm (hz ▸ hzl)

/-- Full specification of the removal loop of `dequeue_first_x_visible_items`
acting on the first `n` visible entries: it always succeeds, the visible
remainder is the `n`-th tail of the original visible list, the invisible
entries are untouched, and exactly `sel.length` elements disappear. -/

theorem removeAllEntries_spec {α : Type} [DecidableEq α] :
    ∀ (n : Nat) (q : List (Entry α)),
      ∃ q', removeAllEntries q ((q.filter (·.visible)).take n) = some q' ∧
        q'.filter (·.visible) = (q.filter (·.visible)).drop n ∧
        q'.filter (fun e => !e.visible) = q.filter (fun e => !e.visible) ∧
        q'.length + ((q.filter (·.visible)).take n).length = q.length ∧
        (∀ e ∈ q', e ∈ q) := by
  intro n
  induction n with
  | zero =>
    intro q
    exact ⟨q, rfl, by simp, rfl, by simp, fun _ h => h⟩
  | succ n ih =>
    intro q
    cases hf : q.filter (·.visible) with
    | nil =>
      refine ⟨q, rfl, ?_, rfl, ?_, fun _ h => h⟩
      · simp [hf]
      · simp [hf]
    | cons x t =>
      have hxq : x ∈ q := by
        have hx : x ∈ q.filter (·.visible) := by
          rw [hf]; exact List.mem_cons_self _ _
        exact (List.mem_filter.mp hx).1
      obtain ⟨q₁, hrem⟩ := pyRemove_of_mem hxq
      obtain ⟨l₁, l₂, heq, hres, hnm⟩ := pyRemove_shape hrem
      obtain ⟨hl₁, hl₂⟩ := filter_decomp_of_head hf heq hnm
      have hq₁f : q₁.filter (·.visible) = t := by
        rw [hres, List.filter_append, hl₁, hl₂]; rfl
      obtain ⟨q', hra, hvis, hinv, hlen, hmem⟩ := ih q₁
      rw [hq₁f] at hra hvis hlen
      have hxvis : x.visible = true := by
        have hx : x ∈ q.filter (·.visible) := by
          rw [hf]; exact List.mem_cons_self _ _
        exact (List.mem_filter.mp hx).2
      refine ⟨q', ?_, ?_, ?_, ?_, ?_⟩
      · show removeAllEntries q ((x :: t).take (n + 1)) = some q'
        rw [List.take_succ_cons]
        simp only [removeAllEntries, hrem, Option.some_bind]
        exact hra
      · rw [hvis, List.drop_succ_cons]
      · rw [hinv]
        exact pyRemove_filter_false hrem (by simp [hxvis])
      · have hq₁len : q₁.length + 1 = q.length := pyRemove_length hrem
        rw [List.take_succ_cons]
        simp only [List.length_cons, List.length_take]
        simp only [List.length_take] at hlen
        omega
      · intro e he
        exact pyRemove_subset hrem e (hmem e he)

/-! ### Lemmas about `markFirstVisible` (the leasing flip of `Get`) -/

theorem markFirstVisible_map_entry {α : Type} :
    ∀ (q : List (Entry α)) (n : Nat),
      (markFirstVisible n q).1.map (·.entry) = q.map (·.entry) := by
  intro q
  induction q with
  | nil => intro n; simp [markFirstVisible]
  | cons e rest ih =>
    intro n
    cases n with
    | zero => simp [markFirstVisible]
    | succ n =>
      by_cases hv : e.visible
      · simp [markFirstVisible, hv, ih n]
      · simp [markFirstVisible, hv, ih (n + 1)]

theorem markFirstVisible_length {α : Type} :
    ∀ (q : List (Entry α)) (n : Nat),
      (markFirstVisible n q).1.length = q.length := by
  intro q n
  have := markFirstVisible_map_entry q n
  have h1 := congrArg List.length this
  simpa using h1

theorem markFirstVisible_flipped {α : Type} :
    ∀ (q : List (Entry α)) (n : Nat),
      (markFirstVisible n q).2 =
        ((q.filter (·.visible)).take n).map (·.entry) := by
  intro q
  induction q with
  | nil => intro n; simp [markFirstVisible]
  | cons e rest ih =>
    intro n
    cases n with
    | zero => simp [markFirstVisible]
    | succ n =>
      by_cases hv : e.visible
      · simp [markFirstVisible, hv, ih n]
      · simp [markFirstVisible, hv, ih (n + 1)]

theorem markFirstVisible_filter_vis {α : Type} :
    ∀ (q : List (Entry α)) (n : Nat),
      (markFirstVisible n q).1.filter (·.visible) =
        (q.filter (·.visible)).drop n := by
  intro q
  induction q with
  | nil => intro n; simp [markFirstVisible]
  | cons e rest ih =>
    intro n
    cases n with
    | zero => simp [markFirstVisible]
    | succ n =>
      by_cases hv : e.visible
      · simp [markFirstVisible, hv, ih n]
      · simp [markFirstVisible, hv, ih (n + 1)]

theorem markFirstVisible_mem_invisible {α : Type} :
    ∀ (q : List (Entry α)) (n : Nat) (e : Entry α),
      e ∈ q → e.visible = false → e ∈ (markFirstVisible n q).1 := by
  intro q
  induction q with
  | nil => intro n e he; simp at he
  | cons x rest ih =>
    intro n e he hinv
    cases n with
    | zero => simpa [markFirstVisible] using he
    | succ n =>
      by_cases hv : x.visible
      · rcases List.mem_cons.mp he with h1 | h1
        · exfalso; rw [h1] at hinv; rw [hinv] at hv; exact Bool.noConfusion hv
        · simp only [markFirstVisible, hv, if_true]
          exact List.mem_cons_of_mem _ (ih n e h1 hinv)
      · rcases List.mem_cons.mp he with h1 | h1
        · simp only [markFirstVisible, hv, if_false]
          exact h1 ▸ List.mem_cons_self _ _
        · simp only [markFirstVisible, hv, if_false]
          exact List.mem_cons_of_mem _ (ih (n + 1) e h1 hinv)

theorem markFirstVisible_mem_cases {α : Type} :
    ∀ (q : List (Entry α)) (n : Nat) (e : Entry α),
      e ∈ (markFirstVisible n q).1 →
        e ∈ q ∨
        (e.visible = false ∧ (⟨e.entry, true⟩ : Entry α) ∈ q ∧
          e.entry ∈ (markFirstVisible n q).2) := by
  intro q
  induction q with
  | nil => intro n e he; simp [markFirstVisible] at he
  | cons x rest ih =>
    intro n e he
    cases n with
    | zero =>
      left; simpa [markFirstVisible] using he
    | succ n =>
      by_cases hv : x.visible
      · simp only [markFirstVisible, hv, if_true] at he ⊢
        rcases List.mem_cons.mp he with h1 | h1
        · right
          have hx : x = ⟨x.entry, true⟩ := by
            cases x with
            | mk a v => simp at hv; rw [hv]
          refine ⟨by rw [h1], ?_, ?_⟩
          · rw [h1]
            show (⟨x.entry, true⟩ : Entry α) ∈ x :: rest
            rw [← hx]
            exact List.mem_cons_self x rest
          · rw [h1]; exact List.mem_cons_self _ _
        · rcases ih n e h1 with h2 | ⟨h2, h3, h4⟩
          · left; exact List.mem_cons_of_mem _ h2
          · right; exact ⟨h2, List.mem_cons_of_mem _ h3, List.mem_cons_of_mem _ h4⟩
      · simp only [markFirstVisible, hv, if_false] at he ⊢
        rcases List.mem_cons.mp he with h1 | h1
        · left; exact h1 ▸ List.mem_cons_self _ _
        · rcases ih (n + 1) e h1 with h2 | ⟨h2, h3, h4⟩
          · left; exact List.mem_cons_of_mem _ h2
          · right; exact ⟨h2, List.mem_cons_of_mem _ h3, h4⟩

theorem markFirstVisible_flip_mem {α : Type} :
    ∀ (q : List (Entry α)) (n : Nat) (p : α),
      p ∈ (markFirstVisible n q).2 →
        (⟨p, false⟩ : Entry α) ∈ (markFirstVisible n q).1 := by
  intro q
  induction q with
  | nil => intro n p hp; simp [markFirstVisible] at hp
  | cons x rest ih =>
    intro n p hp
    cases n with
    | zero => simp [markFirstVisible] at hp
    | succ n =>
      by_cases hv : x.visible
      · simp only [markFirstVisible, hv, if_true] at hp ⊢
        rcases List.mem_cons.mp hp with h1 | h1
        · exact h1 ▸ List.mem_cons_self _ _
        · exact List.mem_cons_of_mem _ (ih n p h1)
      · simp only [markFirstVisible, hv, if_false] at hp ⊢
        exact List.mem_cons_of_mem _ (ih (n + 1) p hp)

/-! ### Lemmas about expired-lease reclamation -/

theorem reclaimScan_zero {α : Type} [DecidableEq α] (h : HEntry α) :
    ∀ (q : List (Entry α)) (hq : List (HEntry α)) (t : List Nat),
      (∀ e ∈ q, e.entry ≠ h.entry) → reclaimScan h q hq t = some (q, hq, t) := by
  intro q
  induction q with
  | nil => intro hq t _; rfl
  | cons e rest ih =>
    intro hq t hne
    have he : e.entry ≠ h.entry := hne e (List.mem_cons_self _ _)
    have hr : ∀ x ∈ rest, x.entry ≠ h.entry :=
      fun x hx => hne x (List.mem_cons_of_mem _ hx)
    simp only [reclaimScan, if_neg he, ih hq t hr, Option.map_some']

theorem reclaimScan_one {α : Type} [DecidableEq α] (h : HEntry α) :
    ∀ (q₁ q₂ : List (Entry α)) (e : Entry α) (hq hq₁ : List (HEntry α)) (t : List Nat),
      (∀ x ∈ q₁, x.entry ≠ h.entry) → (∀ x ∈ q₂, x.entry ≠ h.entry) →
      e.entry = h.entry → pyRemove h hq = some hq₁ →
      reclaimScan h (q₁ ++ e :: q₂) hq t =
        some (q₁ ++ (⟨h.entry, true⟩ : Entry α) :: q₂, hq₁, t ++ [h.receipt]) := by
  intro q₁
  induction q₁ with
  | nil =>
    intro q₂ e hq hq₁ t _ h₂ hee hrem
    show reclaimScan h (e :: q₂) hq t = _
    simp only [reclaimScan, if_pos hee, hrem, Option.some_bind,
      reclaimScan_zero h q₂ hq₁ (t ++ [h.receipt]) h₂, Option.map_some',
      List.nil_append]
    rw [hee]
  | cons x rest ih =>
    intro q₂ e hq hq₁ t h₁ h₂ hee hrem
    have hx : x.entry ≠ h.entry := h₁ x (List.mem_cons_self _ _)
    have hr : ∀ y ∈ rest, y.entry ≠ h.entry :=
      fun y hy => h₁ y (List.mem_cons_of_mem _ hy)
    have hih := ih q₂ e hq hq₁ t hr h₂ hee hrem
    show reclaimScan h (x :: (rest ++ e :: q₂)) hq t = _
    simp only [reclaimScan, if_neg hx, hih, Option.map_some', List.cons_append]

theorem reclaimScan_frame {α : Type} [DecidableEq α] (h : HEntry α) :
    ∀ (q : List (Entry α)) (hq : List (HEntry α)) (t : List Nat)
      (q' : List (Entry α)) (hq' : List (HEntry α)) (t' : List Nat),
      reclaimScan h q hq t = some (q', hq', t') →
      q'.map (·.entry) = q.map (·.entry) ∧ q'.length = q.length ∧
        (∀ x ∈ hq', x ∈ hq) ∧ (∃ u, t' = t ++ u) := by
  intro q
  induction q with
  | nil =>
    intro hq t q' hq' t' hs
    simp only [reclaimScan, Option.some.injEq, Prod.mk.injEq] at hs
    obtain ⟨h1, h2, h3⟩ := hs
    subst h1; subst h2; subst h3
    exact ⟨rfl, rfl, fun x hx => hx, ⟨[], by simp⟩⟩
  | cons e rest ih =>
    intro hq t q' hq' t' hs
    by_cases hee : e.entry = h.entry
    · simp only [reclaimScan, if_pos hee, Option.bind_eq_some,
        Option.map_eq_some'] at hs
      obtain ⟨hq₁, hrem, r, hrec, hr⟩ := hs
      obtain ⟨hm, hl, hsub, u, hu⟩ :=
        ih hq₁ (t ++ [h.receipt]) r.1 r.2.1 r.2.2 hrec
      simp only [Prod.mk.injEq] at hr
      obtain ⟨h1, h2, h3⟩ := hr
      subst h1; subst h2; subst h3
      refine ⟨?_, ?_, ?_, ?_⟩
      · simp [hm, hee]
      · simp [hl]
      · intro x hx
        exact pyRemove_subset hrem x (hsub x hx)
      · exact ⟨[h.receipt] ++ u, by rw [hu]; simp⟩
    · simp only [reclaimScan, if_neg hee, Option.map_eq_some'] at hs
      obtain ⟨r, hrec, hr⟩ := hs
      obtain ⟨hm, hl, hsub, u, hu⟩ := ih hq t r.1 r.2.1 r.2.2 hrec
      simp only [Prod.mk.injEq] at hr
      obtain ⟨h1, h2, h3⟩ := hr
      subst h1; subst h2; subst h3
      refine ⟨?_, ?_, ?_, ?_⟩
      · simp [hm]
      · simp [hl]
      · intro x hx; exact hsub x hx
      · exact ⟨u, hu⟩

theorem checkHiddenGo_noop {α : Type} [DecidableEq α] (now : Nat) :
    ∀ (hs : List (HEntry α)) (st : MockQueue α),
      (∀ h ∈ hs, ¬(now - h.timestamp > st.receiptLifetimeDuration)) →
      checkHiddenGo now hs st = some st := by
  intro hs
  induction hs with
  | nil => intro st _; rfl
  | cons h rest ih =>
    intro st hcond
    have h1 : ¬(now - h.timestamp > st.receiptLifetimeDuration) :=
      hcond h (List.mem_cons_self _ _)
    simp only [checkHiddenGo, if_neg h1]
    exact ih st (fun x hx => hcond x (List.mem_cons_of_mem _ hx))

theorem checkHiddenGo_frame {α : Type} [DecidableEq α] (now : Nat) :
    ∀ (hs : List (HEntry α)) (st st' : MockQueue α),
      checkHiddenGo now hs st = some st' →
      frameRest st' = frameRest st ∧
        st'.queue.map (·.entry) = st.queue.map (·.entry) ∧
        st'.queue.length = st.queue.length ∧
        (∀ x ∈ st'.hiddenQueue, x ∈ st.hiddenQueue) ∧
        (∃ u, st'.timedOutReceipts = st.timedOutReceipts ++ u) := by
  intro hs
  induction hs with
  | nil =>
    intro st st' hgo
    simp only [checkHiddenGo, Option.some.injEq] at hgo
    subst hgo
    exact ⟨rfl, rfl, rfl, fun x hx => hx, ⟨[], by simp⟩⟩
  | cons h rest ih =>
    intro st st' hgo
    simp only [checkHiddenGo] at hgo
    by_cases hc : now - h.timestamp > st.receiptLifetimeDuration
    · rw [if_pos hc] at hgo
      simp only [Option.bind_eq_some] at hgo
      obtain ⟨r, hscan, hgo⟩ := hgo
      obtain ⟨hfr, hmap, hlen, hsub, u, hu⟩ := ih _ st' hgo
      obtain ⟨hm₂, hl₂, hsub₂, u₂, hu₂⟩ :=
        reclaimScan_frame h st.queue st.hiddenQueue st.timedOutReceipts
          r.1 r.2.1 r.2.2 hscan
      refine ⟨hfr, by rw [hmap]; exact hm₂, by rw [hlen]; exact hl₂, ?_, ?_⟩
      · intro x hx
        exact hsub₂ x (hsub x hx)
      · refine ⟨u₂ ++ u, ?_⟩
        rw [hu]
        show r.2.2 ++ u = st.timedOutReceipts ++ (u₂ ++ u)
        rw [hu₂, List.append_assoc]
    · rw [if_neg hc] at hgo
      exact ih st st' hgo

theorem checkHiddenEntryLifetime_frame {α : Type} [DecidableEq α] {now : Nat}
    {s s' : MockQueue α} (h : checkHiddenEntryLifetime now s = some s') :
    frameRest s' = frameRest s ∧
      s'.queue.map (·.entry) = s.queue.map (·.entry) ∧
      s'.queue.length = s.queue.length ∧
      (∀ x ∈ s'.hiddenQueue, x ∈ s.hiddenQueue) ∧
      (∃ u, s'.timedOutReceipts = s.timedOutReceipts ++ u) :=
  checkHiddenGo_frame now s.hiddenQueue s s' h

theorem checkHiddenEntryLifetime_noop {α : Type} [DecidableEq α] {now : Nat}
    {s : MockQueue α}
    (h : ∀ x ∈ s.hiddenQueue, now - x.timestamp ≤ s.receiptLifetimeDuration) :
    checkHiddenEntryLifetime now s = some s :=
  checkHiddenGo_noop now s.hiddenQueue s (fun x hx => by
    have := h x hx
    omega)

/-! ### Characterization of the three wireQ operations -/

theorem tooManyRequests_eq {α : Type} (now : Nat) (s : MockQueue α) :
    tooManyRequests now s =
      ({ s with requestTimestamps :=
           s.requestTimestamps.filter (fun ts => decide (now - ts < 60)) },
       decide (windowCount now s > s.maxRequestsPerMinute)) := rfl

theorem wireqDequeueOperation_throttled {α : Type} [DecidableEq α]
    {now : Nat} {s s₁ : MockQueue α}
    (hrec : checkHiddenEntryLifetime now s = some s₁)
    (hth : windowCount now s₁ > s₁.maxRequestsPerMinute) :
    wireqDequeueOperation now s =
      some ({ s₁ with requestTimestamps :=
                s₁.requestTimestamps.filter (fun ts => decide (now - ts < 60)) },
            ⟨429, [], s₁.retryAfterTooManyRequests⟩) := by
  simp only [wireqDequeueOperation, hrec, Option.some_bind, tooManyRequests_eq]
  rw [if_pos (by simpa using hth)]

theorem wireqGetOperation_throttled {α : Type} [DecidableEq α]
    {now : Nat} {s s₁ : MockQueue α}
    (hrec : checkHiddenEntryLifetime now s = some s₁)
    (hth : windowCount now s₁ > s₁.maxRequestsPerMinute) :
    wireqGetOperation now s =
      some ({ s₁ with requestTimestamps :=
                s₁.requestTimestamps.filter (fun ts => decide (now - ts < 60)) },
            ⟨429, [], s₁.retryAfterTooManyRequests⟩) := by
  simp only [wireqGetOperation, hrec, Option.some_bind, tooManyRequests_eq]
  rw [if_pos (by simpa using hth)]

theorem wireqDequeueOperation_ok {α : Type} [DecidableEq α]
    {now : Nat} {s s₁ : MockQueue α}
    (hrec : checkHiddenEntryLifetime now s = some s₁)
    (hnt : ¬ windowCount now s₁ > s₁.maxRequestsPerMinute) :
    ∃ q₂,
      wireqDequeueOperation now s =
        some ({ s₁ with
                  queue := q₂,
                  requestTimestamps :=
                    s₁.requestTimestamps.filter (fun ts => decide (now - ts < 60))
                      ++ List.replicate
                          ((s₁.queue.filter (·.visible)).take s₁.maxItemsReturned).length
                          now },
              ⟨200,
               ((s₁.queue.filter (·.visible)).take s₁.maxItemsReturned).map (·.entry),
               if lengthVisibleQueue s₁ ≤ s₁.maxItemsReturned then s₁.retryAfter
               else s₁.retryAfterMoreData⟩) ∧
      q₂.filter (·.visible) =
        (s₁.queue.filter (·.visible)).drop s₁.maxItemsReturned ∧
      q₂.filter (fun e => !e.visible) = s₁.queue.filter (fun e => !e.visible) ∧
      q₂.length +
        ((s₁.queue.filter (·.visible)).take s₁.maxItemsReturned).length =
          s₁.queue.length ∧
      (∀ e ∈ q₂, e ∈ s₁.queue) ∧
      removeAllEntries s₁.queue
        ((s₁.queue.filter (·.visible)).take s₁.maxItemsReturned) = some q₂ := by
  obtain ⟨q₂, hra, hvis, hinv, hlen, hmem⟩ :=
    removeAllEntries_spec s₁.maxItemsReturned s₁.queue
  refine ⟨q₂, ?_, hvis, hinv, hlen, hmem, hra⟩
  simp only [wireqDequeueOperation, hrec, Option.some_bind, tooManyRequests_eq]
  rw [if_neg (by simpa using hnt)]
  by_cases hle : lengthVisibleQueue s₁ ≤ s₁.maxItemsReturned
  · rw [if_pos hle, if_pos hle]
    simp only [dequeueFirstXVisibleItems, hra, Option.map_some']
  · rw [if_neg hle, if_neg hle]
    simp only [dequeueFirstXVisibleItems, hra, Option.map_some']

theorem wireqGetOperation_ok {α : Type} [DecidableEq α]
    {now : Nat} {s s₁ : MockQueue α}
    (hrec : checkHiddenEntryLifetime now s = some s₁)
    (hnt : ¬ windowCount now s₁ > s₁.maxRequestsPerMinute) :
    wireqGetOperation now s =
      some ((getFirstXVisibleItems now s₁.maxItemsReturned
               { s₁ with requestTimestamps :=
                   s₁.requestTimestamps.filter (fun ts => decide (now - ts < 60)) }).1,
            ⟨200,
             (getFirstXVisibleItems now s₁.maxItemsReturned
               { s₁ with requestTimestamps :=
                   s₁.requestTimestamps.filter (fun ts => decide (now - ts < 60)) }).2,
             if lengthVisibleQueue s₁ ≤ s₁.maxItemsReturned then s₁.retryAfter
             else s₁.retryAfterMoreData⟩) := by
  simp only [wireqGetOperation, hrec, Option.some_bind, tooManyRequests_eq]
  rw [if_neg (by simpa using hnt)]
  by_cases hle : lengthVisibleQueue s₁ ≤ s₁.maxItemsReturned
  · rw [if_pos hle, if_pos hle]; rfl
  · rw [if_neg hle, if_neg hle]; rfl

theorem wireqDeleteOperation_eq {α : Type} [DecidableEq α]
    {now key : Nat} {s s₁ : MockQueue α}
    (hrec : checkHiddenEntryLifetime now s = some s₁) :
    wireqDeleteOperation now key s = deleteClassified key s₁ := by
  simp only [wireqDeleteOperation, hrec, Option.some_bind]

theorem deleteClassified_already {α : Type} [DecidableEq α]
    {key : Nat} {s₁ : MockQueue α} (h : key ∈ s₁.deletedUrls) :
    deleteClassified key s₁ = some (s₁, .alreadyDeleted) := by
  simp only [deleteClassified, if_pos h]

theorem deleteClassified_expired {α : Type} [DecidableEq α]
    {key : Nat} {s₁ : MockQueue α} (h1 : key ∉ s₁.deletedUrls)
    (h2 : key ∈ s₁.timedOutReceipts) :
    deleteClassified key s₁ = some (s₁, .expired) := by
  simp only [deleteClassified, if_neg h1, if_pos h2]

theorem deleteClassified_unknown {α : Type} [DecidableEq α]
    {key : Nat} {s₁ : MockQueue α} (h1 : key ∉ s₁.deletedUrls)
    (h2 : key ∉ s₁.timedOutReceipts) (h3 : key ∉ s₁.hiddenQueue.map (·.receipt)) :
    deleteClassified key s₁ = some (s₁, .unknown) := by
  simp only [deleteClassified, if_neg h1, if_neg h2, if_pos h3]

theorem deleteClassified_success {α : Type} [DecidableEq α]
    {key : Nat} {s₁ : MockQueue α} {h : HEntry α} {q₁ : List (Entry α)}
    {hq₁ : List (HEntry α)}
    (h1 : key ∉ s₁.deletedUrls) (h2 : key ∉ s₁.timedOutReceipts)
    (hfind : s₁.hiddenQueue.find? (fun x => decide (x.receipt = key)) = some h)
    (hq : pyRemove (⟨h.entry, false⟩ : Entry α) s₁.queue = some q₁)
    (hhq : pyRemove h s₁.hiddenQueue = some hq₁) :
    deleteClassified key s₁ =
      some ({ s₁ with
                queue := q₁,
                hiddenQueue := hq₁,
                deletedUrls := s₁.deletedUrls ++ [key] },
            .success) := by
  have hmem : h ∈ s₁.hiddenQueue := List.mem_of_find?_eq_some hfind
  have hrk : h.receipt = key := by simpa using List.find?_some hfind
  have h3 : key ∈ s₁.hiddenQueue.map (·.receipt) :=
    List.mem_map.mpr ⟨h, hmem, hrk⟩
  simp only [deleteClassified, if_neg h1, if_neg h2, hfind, Option.some_bind,
    hq, hhq, Option.map_some']
  rw [if_neg (not_not_intro h3)]

/-! ### Extraction of the untouched components from `frameRest` -/

theorem frameRest_deletedUrls {α : Type} {s s' : MockQueue α}
    (h : frameRest s' = frameRest s) : s'.deletedUrls = s.deletedUrls :=
  congrArg (fun p => p.1) h

theorem frameRest_requestTimestamps {α : Type} {s s' : MockQueue α}
    (h : frameRest s' = frameRest s) :
    s'.requestTimestamps = s.requestTimestamps :=
  congrArg (fun p => p.2.1) h

theorem frameRest_nextReceipt {α : Type} {s s' : MockQueue α}
    (h : frameRest s' = frameRest s) : s'.nextReceipt = s.nextReceipt :=
  congrArg (fun p => p.2.2.1) h

theorem frameRest_maxItemsReturned {α : Type} {s s' : MockQueue α}
    (h : frameRest s' = frameRest s) : s'.maxItemsReturned = s.maxItemsReturned :=
  congrArg (fun p => p.2.2.2.1) h

theorem frameRest_retryAfter {α : Type} {s s' : MockQueue α}
    (h : frameRest s' = frameRest s) : s'.retryAfter = s.retryAfter :=
  congrArg (fun p => p.2.2.2.2.1) h

theorem frameRest_retryAfterMoreData {α : Type} {s s' : MockQueue α}
    (h : frameRest s' = frameRest s) :
    s'.retryAfterMoreData = s.retryAfterMoreData :=
  congrArg (fun p => p.2.2.2.2.2.1) h

theorem frameRest_retryAfterTooManyRequests {α : Type} {s s' : MockQueue α}
    (h : frameRest s' = frameRest s) :
    s'.retryAfterTooManyRequests = s.retryAfterTooManyRequests :=
  congrArg (fun p => p.2.2.2.2.2.2.1) h

theorem frameRest_maxRequestsPerMinute {α : Type} {s s' : MockQueue α}
    (h : frameRest s' = frameRest s) :
    s'.maxRequestsPerMinute = s.maxRequestsPerMinute :=
  congrArg (fun p => p.2.2.2.2.2.2.2.1) h

theorem frameRest_receiptLifetimeDuration {α : Type} {s s' : MockQueue α}
    (h : frameRest s' = frameRest s) :
    s'.receiptLifetimeDuration = s.receiptLifetimeDuration :=
  congrArg (fun p => p.2.2.2.2.2.2.2.2) h

/-! ### Projection facts and frame/shape lemmas for the operations -/

theorem getFirstX_queue {α : Type} (now n : Nat) (s : MockQueue α) :
    (getFirstXVisibleItems now n s).1.queue = (markFirstVisible n s.queue).1 := rfl

theorem getFirstX_pairs {α : Type} (now n : Nat) (s : MockQueue α) :
    (getFirstXVisibleItems now n s).2 =
      (markFirstVisible n s.queue).2.zip
        ((List.range (markFirstVisible n s.queue).2.length).map
          (s.nextReceipt + ·)) := rfl

theorem getFirstX_hiddenQueue {α : Type} (now n : Nat) (s : MockQueue α) :
    (getFirstXVisibleItems now n s).1.hiddenQueue =
      s.hiddenQueue ++
        ((getFirstXVisibleItems now n s).2.map (fun pr => ⟨pr.1, pr.2, now⟩)) := rfl

theorem getFirstX_deletedUrls {α : Type} (now n : Nat) (s : MockQueue α) :
    (getFirstXVisibleItems now n s).1.deletedUrls = s.deletedUrls := rfl

theorem getFirstX_timedOutReceipts {α : Type} (now n : Nat) (s : MockQueue α) :
    (getFirstXVisibleItems now n s).1.timedOutReceipts = s.timedOutReceipts := rfl

theorem getFirstX_requestTimestamps {α : Type} (now n : Nat) (s : MockQueue α) :
    (getFirstXVisibleItems now n s).1.requestTimestamps =
      s.requestTimestamps ++
        List.replicate (markFirstVisible n s.queue).2.length now := rfl

theorem getFirstX_nextReceipt {α : Type} (now n : Nat) (s : MockQueue α) :
    (getFirstXVisibleItems now n s).1.nextReceipt =
      s.nextReceipt + (markFirstVisible n s.queue).2.length := rfl

theorem wireqGetOperation_shape {α : Type} [DecidableEq α]
    {now : Nat} {s s' : MockQueue α} {r : WireqResponse (α × Nat)}
    (hop : wireqGetOperation now s = some (s', r)) :
    s'.queue.map (·.entry) = s.queue.map (·.entry) ∧
    s'.queue.length = s.queue.length ∧
    s'.deletedUrls = s.deletedUrls ∧
    (∀ x ∈ s.timedOutReceipts, x ∈ s'.timedOutReceipts) := by
  have hop' := hop
  simp only [wireqGetOperation, Option.bind_eq_some] at hop'
  obtain ⟨s₁, hrec, -⟩ := hop'
  obtain ⟨hfr, hmap, hlen, hsubh, u, hu⟩ := checkHiddenEntryLifetime_frame hrec
  have hdel := frameRest_deletedUrls hfr
  have htout : ∀ x ∈ s.timedOutReceipts, x ∈ s₁.timedOutReceipts := by
    intro x hx; rw [hu]; exact List.mem_append.mpr (Or.inl hx)
  by_cases hth : windowCount now s₁ > s₁.maxRequestsPerMinute
  · have heq := wireqGetOperation_throttled hrec hth
    rw [hop] at heq
    injection heq with heq
    have hs' : s' = _ := congrArg Prod.fst heq
    subst hs'
    exact ⟨hmap, hlen, hdel, htout⟩
  · have heq := wireqGetOperation_ok hrec hth
    rw [hop] at heq
    injection heq with heq
    have hs' : s' = _ := congrArg Prod.fst heq
    subst hs'
    refine ⟨?_, ?_, hdel, htout⟩
    · exact (markFirstVisible_map_entry s₁.queue s₁.maxItemsReturned).trans hmap
    · exact (markFirstVisible_length s₁.queue s₁.maxItemsReturned).trans hlen

theorem tooMany_queue {α : Type} (now : Nat) (s : MockQueue α) :
    (tooManyRequests now s).1.queue = s.queue := rfl

theorem tooMany_hiddenQueue {α : Type} (now : Nat) (s : MockQueue α) :
    (tooManyRequests now s).1.hiddenQueue = s.hiddenQueue := rfl

theorem tooMany_deletedUrls {α : Type} (now : Nat) (s : MockQueue α) :
    (tooManyRequests now s).1.deletedUrls = s.deletedUrls := rfl

theorem tooMany_timedOutReceipts {α : Type} (now : Nat) (s : MockQueue α) :
    (tooManyRequests now s).1.timedOutReceipts = s.timedOutReceipts := rfl

theorem tooMany_maxItemsReturned {α : Type} (now : Nat) (s : MockQueue α) :
    (tooManyRequests now s).1.maxItemsReturned = s.maxItemsReturned := rfl

theorem tooMany_nextReceipt {α : Type} (now : Nat) (s : MockQueue α) :
    (tooManyRequests now s).1.nextReceipt = s.nextReceipt := rfl

theorem tooMany_requestTimestamps {α : Type} (now : Nat) (s : MockQueue α) :
    (tooManyRequests now s).1.requestTimestamps =
      s.requestTimestamps.filter (fun ts => decide (now - ts < 60)) := rfl

theorem wireqDequeueOperation_shape {α : Type} [DecidableEq α]
    {now : Nat} {s s' : MockQueue α} {r : WireqResponse α}
    (hop : wireqDequeueOperation now s = some (s', r)) :
    s'.queue.length + r.entries.length = s.queue.length ∧
    (∀ p ∈ s'.queue.map (·.entry), p ∈ s.queue.map (·.entry)) ∧
    s'.deletedUrls = s.deletedUrls ∧
    (∀ x ∈ s.timedOutReceipts, x ∈ s'.timedOutReceipts) := by
  have hop' := hop
  simp only [wireqDequeueOperation, Option.bind_eq_some] at hop'
  obtain ⟨s₁, hrec, -⟩ := hop'
  obtain ⟨hfr, hmap, hlen, hsubh, u, hu⟩ := checkHiddenEntryLifetime_frame hrec
  have hdel := frameRest_deletedUrls hfr
  have htout : ∀ x ∈ s.timedOutReceipts, x ∈ s₁.timedOutReceipts := by
    intro x hx; rw [hu]; exact List.mem_append.mpr (Or.inl hx)
  have hqmem : ∀ p ∈ s₁.queue.map (fun e => e.entry),
      p ∈ s.queue.map (fun e => e.entry) := by
    intro p hp; rw [← hmap]; exact hp
  by_cases hth : windowCount now s₁ > s₁.maxRequestsPerMinute
  · have heq := wireqDequeueOperation_throttled hrec hth
    rw [hop] at heq
    injection heq with heq
    have hs' : s' = _ := congrArg Prod.fst heq
    have hr : r = _ := congrArg Prod.snd heq
    subst hs'; subst hr
    exact ⟨by simpa using hlen, hqmem, hdel, htout⟩
  · obtain ⟨q₂, heq, hvv, hii, hll, hmm, -⟩ := wireqDequeueOperation_ok hrec hth
    rw [hop] at heq
    injection heq with heq
    have hs' : s' = _ := congrArg Prod.fst heq
    have hr : r = _ := congrArg Prod.snd heq
    subst hs'; subst hr
    refine ⟨?_, ?_, hdel, htout⟩
    · simp only [List.length_map]
      omega
    · intro p hp
      simp only [List.mem_map] at hp
      obtain ⟨e, he, hpe⟩ := hp
      exact hqmem p (List.mem_map.mpr ⟨e, hmm e he, hpe⟩)

theorem wireqDeleteOperation_shape {α : Type} [DecidableEq α]
    {now key : Nat} {s s' : MockQueue α} {o : DeleteOutcome}
    (hop : wireqDeleteOperation now key s = some (s', o)) :
    s'.queue.length + (if o = .success then 1 else 0) = s.queue.length ∧
    (∀ x ∈ s.deletedUrls, x ∈ s'.deletedUrls) ∧
    (∀ x ∈ s.timedOutReceipts, x ∈ s'.timedOutReceipts) ∧
    (∀ p ∈ s'.queue.map (·.entry), p ∈ s.queue.map (·.entry)) := by
  simp only [wireqDeleteOperation, Option.bind_eq_some] at hop
  obtain ⟨s₁, hrec, hcl⟩ := hop
  obtain ⟨hfr, hmap, hlen, hsubh, u, hu⟩ := checkHiddenEntryLifetime_frame hrec
  have hdel := frameRest_deletedUrls hfr
  have htout : ∀ x ∈ s.timedOutReceipts, x ∈ s₁.timedOutReceipts := by
    intro x hx; rw [hu]; exact List.mem_append.mpr (Or.inl hx)
  have hqmem : ∀ p ∈ s₁.queue.map (fun e => e.entry),
      p ∈ s.queue.map (fun e => e.entry) := by
    intro p hp; rw [← hmap]; exact hp
  simp only [deleteClassified] at hcl
  split at hcl
  · simp only [Option.some.injEq, Prod.mk.injEq] at hcl
    obtain ⟨hs', ho⟩ := hcl
    subst hs'; subst ho
    exact ⟨by simpa using hlen, fun x hx => hdel ▸ hx, htout, hqmem⟩
  · split at hcl
    · simp only [Option.some.injEq, Prod.mk.injEq] at hcl
      obtain ⟨hs', ho⟩ := hcl
      subst hs'; subst ho
      exact ⟨by simpa using hlen, fun x hx => hdel ▸ hx, htout, hqmem⟩
    · split at hcl
      · simp only [Option.some.injEq, Prod.mk.injEq] at hcl
        obtain ⟨hs', ho⟩ := hcl
        subst hs'; subst ho
        exact ⟨by simpa using hlen, fun x hx => hdel ▸ hx, htout, hqmem⟩
      · simp only [Option.bind_eq_some, Option.map_eq_some'] at hcl
        obtain ⟨h, hfind, q₁, hq₁, hq₂, hrem2, hpair⟩ := hcl
        rw [Prod.mk.injEq] at hpair
        obtain ⟨hs', ho⟩ := hpair
        subst hs'; subst ho
        refine ⟨?_, ?_, htout, ?_⟩
        · have hpl := pyRemove_length hq₁
          simp only [if_pos rfl]
          show q₁.length + 1 = s.queue.length
          omega
        · intro x hx
          rw [← hdel] at hx
          show x ∈ s₁.deletedUrls ++ [key]
          exact List.mem_append.mpr (Or.inl hx)
        · intro p hp
          simp only [List.mem_map] at hp
          obtain ⟨e, he, hpe⟩ := hp
          exact hqmem p (List.mem_map.mpr ⟨e, pyRemove_subset hq₁ e he, hpe⟩)

theorem step_shape {α : Type} [DecidableEq α] {op : Op α}
    {s s' : MockQueue α} {out : List α} {rem : Nat}
    (h : step op s = some (s', out, rem)) :
    s'.queue.length + rem = s.queue.length + (opItems op).length ∧
    (∀ x ∈ s.deletedUrls, x ∈ s'.deletedUrls) ∧
    (∀ x ∈ s.timedOutReceipts, x ∈ s'.timedOutReceipts) := by
  cases op with
  | enqueue items =>
    simp only [step, Option.some.injEq, Prod.mk.injEq] at h
    obtain ⟨hs', -, hrem⟩ := h
    subst hs'
    refine ⟨?_, fun x hx => hx, fun x hx => hx⟩
    simp only [addToQueue, List.length_append, List.length_map, opItems,
      List.length_nil]
    omega
  | get now =>
    simp only [step, Option.map_eq_some'] at h
    obtain ⟨⟨s₂, resp⟩, hop, heq⟩ := h
    simp only [Prod.mk.injEq] at heq
    obtain ⟨hs', -, hrem⟩ := heq
    subst hs'
    obtain ⟨-, hlen, hdel, htout⟩ := wireqGetOperation_shape hop
    refine ⟨?_, fun x hx => hdel ▸ hx, htout⟩
    simp only [opItems, List.length_nil]
    omega
  | dequeue now =>
    simp only [step, Option.map_eq_some'] at h
    obtain ⟨⟨s₂, resp⟩, hop, heq⟩ := h
    simp only [Prod.mk.injEq] at heq
    obtain ⟨hs', -, hrem⟩ := heq
    subst hs'
    obtain ⟨hlen, -, hdel, htout⟩ := wireqDequeueOperation_shape hop
    refine ⟨?_, fun x hx => hdel ▸ hx, htout⟩
    simp only [opItems, List.length_nil]
    omega
  | delete now key =>
    simp only [step, Option.map_eq_some'] at h
    obtain ⟨⟨s₂, o⟩, hop, heq⟩ := h
    simp only [Prod.mk.injEq] at heq
    obtain ⟨hs', -, hrem⟩ := heq
    subst hs'
    obtain ⟨hlen, hdel, htout, -⟩ := wireqDeleteOperation_shape hop
    refine ⟨?_, hdel, htout⟩
    simp only [opItems, List.length_nil]
    omega

theorem run_shape {α : Type} [DecidableEq α] :
    ∀ (ops : List (Op α)) (s s' : MockQueue α) (outs : List (List α)) (rem : Nat),
      run s ops = some (s', outs, rem) →
      s'.queue.length + rem = s.queue.length + (allEnqueued ops).length ∧
      (∀ x ∈ s.deletedUrls, x ∈ s'.deletedUrls) ∧
      (∀ x ∈ s.timedOutReceipts, x ∈ s'.timedOutReceipts) := by
  intro ops
  induction ops with
  | nil =>
    intro s s' outs rem h
    simp only [run, Option.some.injEq, Prod.mk.injEq] at h
    obtain ⟨hs', -, hrem⟩ := h
    subst hs'
    refine ⟨?_, fun x hx => hx, fun x hx => hx⟩
    simp only [allEnqueued, List.length_nil]
    omega
  | cons op ops ih =>
    intro s s' outs rem h
    simp only [run, Option.bind_eq_some, Option.map_eq_some'] at h
    obtain ⟨⟨s₁, out₁, rem₁⟩, hstep, ⟨s₂, outs₂, rem₂⟩, hrun, heq⟩ := h
    simp only [Prod.mk.injEq] at heq
    obtain ⟨hs', -, hrem⟩ := heq
    subst hs'
    obtain ⟨hl₁, hd₁, ht₁⟩ := step_shape hstep
    obtain ⟨hl₂, hd₂, ht₂⟩ := ih s₁ s₂ outs₂ rem₂ hrun
    refine ⟨?_, fun x hx => hd₂ x (hd₁ x hx), fun x hx => ht₂ x (ht₁ x hx)⟩
    have hall : (allEnqueued (op :: ops)).length =
        (opItems op).length + (allEnqueued ops).length := by
      cases op <;> simp [allEnqueued, opItems]
    omega

/-- C6: at every reachable state, the number of items still in the queue
(visible or leased) plus the number of items permanently removed by
`Dequeue` or by a successful `Delete` (the `rem` counter accumulated by
`run`) equals the total number of items ever enqueued. -/

theorem conservation_of_items {α : Type} [DecidableEq α]
    (mx ra ramd ratmr mrpm rld : Nat) (ops : List (Op α))
    (s : MockQueue α) (outs : List (List α)) (rem : Nat)
    (hrun : run (MockQueue.init α mx ra ramd ratmr mrpm rld) ops =
      some (s, outs, rem)) :
    s.queue.length + rem = (allEnqueued ops).length := by
  obtain ⟨hl, -, -⟩ := run_shape ops _ s outs rem hrun
  simpa [MockQueue.init] using hl

theorem conservation_of_items_witness :
    c6run.1.queue.length + c6run.2.2 =
      (allEnqueued
        ([.enqueue [1, 2, 3], .dequeue 0, .get 0] : List (Op Nat))).length :=
  conservation_of_items 10 100 10 360 30 200 _ c6run.1 c6run.2.1 c6run.2.2
    (by decide)

/-- C1: once expired-lease reclamation has run (producing `s₁`) and every
active lease is backed by its queue element, `Delete(key)` classifies the
receipt by the priority deleted-set → expired-set → unknown → success,
with the historical status codes 410/410/404/204; a success removes
exactly one queue entry, destroys exactly one lease and records the key
in the deleted-set, and afterwards every subsequent `Delete` of the same
key (after any further operations, whenever its own reclamation pass
succeeds) yields `alreadyDeleted`. -/

theorem delete_priority_and_idempotence {α : Type} [DecidableEq α]
    (now key : Nat) (s s₁ : MockQueue α)
    (hrec : checkHiddenEntryLifetime now s = some s₁)
    (hWF : leasesBacked s₁) :
    ∃ s₂ o, wireqDeleteOperation now key s = some (s₂, o) ∧
      o = (if key ∈ s₁.deletedUrls then .alreadyDeleted
           else if key ∈ s₁.timedOutReceipts then .expired
           else if key ∉ s₁.hiddenQueue.map (·.receipt) then .unknown
           else .success) ∧
      statusOf .alreadyDeleted = 410 ∧ statusOf .expired = 410 ∧
      statusOf .unknown = 404 ∧ statusOf .success = 204 ∧
      (o ≠ .success → s₂ = s₁) ∧
      (o = .success →
        s₂.queue.length + 1 = s₁.queue.length ∧
        s₂.hiddenQueue.length + 1 = s₁.hiddenQueue.length ∧
        key ∈ s₂.deletedUrls) ∧
      (o = .success →
        ∀ (ops : List (Op α)) s₃ outs rem,
          run s₂ ops = some (s₃, outs, rem) →
          ∀ now₂ s₄, checkHiddenEntryLifetime now₂ s₃ = some s₄ →
            wireqDeleteOperation now₂ key s₃ = some (s₄, .alreadyDeleted)) := by
  rw [wireqDeleteOperation_eq hrec]
  by_cases h1 : key ∈ s₁.deletedUrls
  · refine ⟨s₁, .alreadyDeleted, deleteClassified_already h1, ?_, rfl, rfl, rfl,
      rfl, fun _ => rfl, ?_, ?_⟩
    · rw [if_pos h1]
    · intro hc; cases hc
    · intro hc; cases hc
  · by_cases h2 : key ∈ s₁.timedOutReceipts
    · refine ⟨s₁, .expired, deleteClassified_expired h1 h2, ?_, rfl, rfl, rfl,
        rfl, fun _ => rfl, ?_, ?_⟩
      · rw [if_neg h1, if_pos h2]
      · intro hc; cases hc
      · intro hc; cases hc
    · by_cases h3 : key ∈ s₁.hiddenQueue.map (·.receipt)
      · have hfs : (s₁.hiddenQueue.find?
            (fun x => decide (x.receipt = key))).isSome := by
          rw [List.find?_isSome]
          obtain ⟨h₀, hmem, hrk⟩ := List.mem_map.mp h3
          exact ⟨h₀, hmem, by simpa using hrk⟩
        obtain ⟨h₀, hfind⟩ := Option.isSome_iff_exists.mp hfs
        have hmem : h₀ ∈ s₁.hiddenQueue := List.mem_of_find?_eq_some hfind
        obtain ⟨q₁, hq₁⟩ := pyRemove_of_mem (hWF h₀ hmem)
        obtain ⟨hq₂, hhq⟩ := pyRemove_of_mem hmem
        refine ⟨_, .success,
          deleteClassified_success h1 h2 hfind hq₁ hhq, ?_, rfl, rfl, rfl, rfl,
          fun hc => absurd rfl hc, ?_, ?_⟩
        · rw [if_neg h1, if_neg h2, if_neg (not_not_intro h3)]
        · intro _
          refine ⟨?_, ?_, ?_⟩
          · exact pyRemove_length hq₁
          · exact pyRemove_length hhq
          · show key ∈ s₁.deletedUrls ++ [key]
            exact List.mem_append.mpr (Or.inr (List.mem_cons_self _ _))
        · intro _ ops s₃ outs rem hrun now₂ s₄ hrec₂
          have hk₂ : key ∈ s₁.deletedUrls ++ [key] :=
            List.mem_append.mpr (Or.inr (List.mem_cons_self _ _))
          obtain ⟨-, hdmono, -⟩ := run_shape ops _ s₃ outs rem hrun
          have hk₃ : key ∈ s₃.deletedUrls := hdmono key hk₂
          obtain ⟨hfr₄, -, -, -, -⟩ := checkHiddenEntryLifetime_frame hrec₂
          have hk₄ : key ∈ s₄.deletedUrls := by
            rw [frameRest_deletedUrls hfr₄]
            exact hk₃
          rw [wireqDeleteOperation_eq hrec₂]
          exact deleteClassified_already hk₄
      · refine ⟨s₁, .unknown, deleteClassified_unknown h1 h2 h3, ?_, rfl, rfl,
          rfl, rfl, fun _ => rfl, ?_, ?_⟩
        · rw [if_neg h1, if_neg h2, if_pos h3]
        · intro hc; cases hc
        · intro hc; cases hc

theorem delete_priority_and_idempotence_witness :
    ∃ s₂ o, wireqDeleteOperation 0 0 sC1 = some (s₂, o) ∧
      o = (if 0 ∈ sC1.deletedUrls then .alreadyDeleted
           else if 0 ∈ sC1.timedOutReceipts then .expired
           else if 0 ∉ sC1.hiddenQueue.map (·.receipt) then .unknown
           else .success) ∧
      statusOf .alreadyDeleted = 410 ∧ statusOf .expired = 410 ∧
      statusOf .unknown = 404 ∧ statusOf .success = 204 ∧
      (o ≠ .success → s₂ = sC1) ∧
      (o = .success →
        s₂.queue.length + 1 = sC1.queue.length ∧
        s₂.hiddenQueue.length + 1 = sC1.hiddenQueue.length ∧
        0 ∈ s₂.deletedUrls) ∧
      (o = .success →
        ∀ (ops : List (Op Nat)) s₃ outs rem,
          run s₂ ops = some (s₃, outs, rem) →
          ∀ now₂ s₄, checkHiddenEntryLifetime now₂ s₃ = some s₄ →
            wireqDeleteOperation now₂ 0 s₃ = some (s₄, .alreadyDeleted)) :=
  delete_priority_and_idempotence 0 0 sC1 sC1 (by decide) (by decide)

/-- C4: a non-throttled read determines its pacing hint by the visible
backlog remaining after its own removals/leases: the drained hint
(`retry_after`) exactly when the remaining visible backlog is empty, and
the more-data hint (`retry_after_more_data`) otherwise; this holds for
both `Dequeue` and `Get`. -/

theorem pacing_hint_from_remaining_backlog {α : Type} [DecidableEq α]
    (now : Nat) (s s₁ : MockQueue α)
    (hrec : checkHiddenEntryLifetime now s = some s₁)
    (hnt : ¬ windowCount now s₁ > s₁.maxRequestsPerMinute) :
    (∃ s₂ r, wireqDequeueOperation now s = some (s₂, r) ∧ r.status = 200 ∧
      r.retryAfter =
        (if lengthVisibleQueue s₂ = 0 then s₂.retryAfter
         else s₂.retryAfterMoreData)) ∧
    (∃ s₂ r, wireqGetOperation now s = some (s₂, r) ∧ r.status = 200 ∧
      r.retryAfter =
        (if lengthVisibleQueue s₂ = 0 then s₂.retryAfter
         else s₂.retryAfterMoreData)) := by
  constructor
  · obtain ⟨q₂, heq, hvv, hinv, hlen, hmem, -⟩ := wireqDequeueOperation_ok hrec hnt
    refine ⟨_, _, heq, rfl, ?_⟩
    have hlv : (q₂.filter (·.visible)).length =
        lengthVisibleQueue s₁ - s₁.maxItemsReturned := by
      rw [hvv, List.length_drop]; rfl
    show (if lengthVisibleQueue s₁ ≤ s₁.maxItemsReturned then s₁.retryAfter
          else s₁.retryAfterMoreData) =
        if (q₂.filter (·.visible)).length = 0 then s₁.retryAfter
        else s₁.retryAfterMoreData
    by_cases hle : lengthVisibleQueue s₁ ≤ s₁.maxItemsReturned
    · rw [if_pos hle, if_pos (by omega)]
    · rw [if_neg hle, if_neg (by omega)]
  · have heq := wireqGetOperation_ok hrec hnt
    refine ⟨_, _, heq, rfl, ?_⟩
    have hlv : ((markFirstVisible s₁.maxItemsReturned s₁.queue).1.filter
        (·.visible)).length = lengthVisibleQueue s₁ - s₁.maxItemsReturned := by
      rw [markFirstVisible_filter_vis, List.length_drop]; rfl
    show (if lengthVisibleQueue s₁ ≤ s₁.maxItemsReturned then s₁.retryAfter
          else s₁.retryAfterMoreData) =
        if ((markFirstVisible s₁.maxItemsReturned s₁.queue).1.filter
            (·.visible)).length = 0 then s₁.retryAfter
        else s₁.retryAfterMoreData
    by_cases hle : lengthVisibleQueue s₁ ≤ s₁.maxItemsReturned
    · rw [if_pos hle, if_pos (by omega)]
    · rw [if_neg hle, if_neg (by omega)]

theorem pacing_hint_from_remaining_backlog_witness :
    ((∃ s₂ r, wireqDequeueOperation 0 s20 = some (s₂, r) ∧ r.status = 200 ∧
      r.retryAfter =
        (if lengthVisibleQueue s₂ = 0 then s₂.retryAfter
         else s₂.retryAfterMoreData)) ∧
     (∃ s₂ r, wireqGetOperation 0 s20 = some (s₂, r) ∧ r.status = 200 ∧
      r.retryAfter =
        (if lengthVisibleQueue s₂ = 0 then s₂.retryAfter
         else s₂.retryAfterMoreData))) ∧
    ((∃ s₂ r, wireqDequeueOperation 0 c4pair1.1 = some (s₂, r) ∧
      r.status = 200 ∧
      r.retryAfter =
        (if lengthVisibleQueue s₂ = 0 then s₂.retryAfter
         else s₂.retryAfterMoreData)) ∧
     (∃ s₂ r, wireqGetOperation 0 c4pair1.1 = some (s₂, r) ∧ r.status = 200 ∧
      r.retryAfter =
        (if lengthVisibleQueue s₂ = 0 then s₂.retryAfter
         else s₂.retryAfterMoreData))) ∧
    c4pair1.2.entries.length = 10 ∧ c4pair1.2.retryAfter = 10 ∧
    c4pair2.2.entries.length = 10 ∧ c4pair2.2.retryAfter = 100 :=
  ⟨pacing_hint_from_remaining_backlog 0 s20 s20 (by decide) (by decide),
   pacing_hint_from_remaining_backlog 0 c4pair1.1 c4pair1.1 (by decide)
     (by decide),
   by decide, by decide, by decide, by decide⟩

theorem deleteClassified_requestTimestamps {α : Type} [DecidableEq α]
    {key : Nat} {s₁ s₂ : MockQueue α} {o : DeleteOutcome}
    (h : deleteClassified key s₁ = some (s₂, o)) :
    s₂.requestTimestamps = s₁.requestTimestamps := by
  simp only [deleteClassified] at h
  split at h
  · simp only [Option.some.injEq, Prod.mk.injEq] at h
    rw [← h.1]
  · split at h
    · simp only [Option.some.injEq, Prod.mk.injEq] at h
      rw [← h.1]
    · split at h
      · simp only [Option.some.injEq, Prod.mk.injEq] at h
        rw [← h.1]
      · simp only [Option.bind_eq_some, Option.map_eq_some'] at h
        obtain ⟨x, hfind, q₁, hq₁, hq₂, hrem2, hpair⟩ := h
        rw [Prod.mk.injEq] at hpair
        rw [← hpair.1]

theorem statusOf_ne_throttle (o : DeleteOutcome) : statusOf o ≠ 429 := by
  cases o <;> decide

/-- C10: a non-throttled read records exactly one rate-window timestamp
per returned item (`k` timestamps for `k` items), appended to the pruned
window; a read that finds the visible queue empty returns no entries with
the empty-backlog pacing hint and records no timestamp at all. -/

theorem timestamp_per_returned_item {α : Type} [DecidableEq α]
    (now : Nat) (s s₁ : MockQueue α)
    (hrec : checkHiddenEntryLifetime now s = some s₁)
    (hnt : ¬ windowCount now s₁ > s₁.maxRequestsPerMinute) :
    (∃ s₂ r, wireqDequeueOperation now s = some (s₂, r) ∧ r.status = 200 ∧
      s₂.requestTimestamps =
        s₁.requestTimestamps.filter (fun ts => decide (now - ts < 60)) ++
          List.replicate r.entries.length now ∧
      (lengthVisibleQueue s₁ = 0 →
        r.entries = [] ∧ r.retryAfter = s₁.retryAfter ∧
        s₂.requestTimestamps =
          s₁.requestTimestamps.filter (fun ts => decide (now - ts < 60)))) ∧
    (∃ s₂ r, wireqGetOperation now s = some (s₂, r) ∧ r.status = 200 ∧
      s₂.requestTimestamps =
        s₁.requestTimestamps.filter (fun ts => decide (now - ts < 60)) ++
          List.replicate r.entries.length now ∧
      (lengthVisibleQueue s₁ = 0 →
        r.entries = [] ∧ r.retryAfter = s₁.retryAfter ∧
        s₂.requestTimestamps =
          s₁.requestTimestamps.filter (fun ts => decide (now - ts < 60)))) := by
  constructor
  · obtain ⟨q₂, heq, hvv, hinv, hlen, hmem, -⟩ := wireqDequeueOperation_ok hrec hnt
    refine ⟨_, _, heq, rfl, ?_, ?_⟩
    · show s₁.requestTimestamps.filter (fun ts => decide (now - ts < 60)) ++
          List.replicate
            ((s₁.queue.filter (·.visible)).take s₁.maxItemsReturned).length now =
        _ ++ List.replicate
          (((s₁.queue.filter (·.visible)).take
            s₁.maxItemsReturned).map (·.entry)).length now
      rw [List.length_map]
    · intro hempty
      have hnil : s₁.queue.filter (·.visible) = [] :=
        List.length_eq_zero.mp hempty
      refine ⟨?_, ?_, ?_⟩
      · show ((s₁.queue.filter (·.visible)).take
            s₁.maxItemsReturned).map (·.entry) = []
        rw [hnil]; simp
      · show (if lengthVisibleQueue s₁ ≤ s₁.maxItemsReturned then s₁.retryAfter
              else s₁.retryAfterMoreData) = s₁.retryAfter
        rw [if_pos (by omega)]
      · show s₁.requestTimestamps.filter (fun ts => decide (now - ts < 60)) ++
            List.replicate
              ((s₁.queue.filter (·.visible)).take
                s₁.maxItemsReturned).length now = _
        rw [hnil]
        simp
  · have heq := wireqGetOperation_ok hrec hnt
    refine ⟨_, _, heq, rfl, ?_, ?_⟩
    · show (getFirstXVisibleItems now s₁.maxItemsReturned
          { s₁ with requestTimestamps := s₁.requestTimestamps.filter (fun ts => decide (now - ts < 60)) }).1.requestTimestamps = _
      rw [getFirstX_requestTimestamps, getFirstX_pairs]
      show s₁.requestTimestamps.filter (fun ts => decide (now - ts < 60)) ++
          List.replicate (markFirstVisible s₁.maxItemsReturned s₁.queue).2.length
            now = _
      congr 2
      rw [List.length_zip, List.length_map, List.length_range, Nat.min_self]
    · intro hempty
      have hnil : s₁.queue.filter (·.visible) = [] :=
        List.length_eq_zero.mp hempty
      have hflip : (markFirstVisible s₁.maxItemsReturned s₁.queue).2 = [] := by
        rw [markFirstVisible_flipped, hnil]; simp
      refine ⟨?_, ?_, ?_⟩
      · show (getFirstXVisibleItems now s₁.maxItemsReturned
            { s₁ with requestTimestamps := s₁.requestTimestamps.filter (fun ts => decide (now - ts < 60)) }).2 = []
        rw [getFirstX_pairs]
        show (markFirstVisible s₁.maxItemsReturned s₁.queue).2.zip _ = []
        rw [hflip]
        rfl
      · show (if lengthVisibleQueue s₁ ≤ s₁.maxItemsReturned then s₁.retryAfter
              else s₁.retryAfterMoreData) = s₁.retryAfter
        rw [if_pos (by omega)]
      · show (getFirstXVisibleItems now s₁.maxItemsReturned
            { s₁ with requestTimestamps := s₁.requestTimestamps.filter (fun ts => decide (now - ts < 60)) }).1.requestTimestamps = _
        rw [getFirstX_requestTimestamps]
        show s₁.requestTimestamps.filter (fun ts => decide (now - ts < 60)) ++
            List.replicate
              (markFirstVisible s₁.maxItemsReturned s₁.queue).2.length now = _
        rw [hflip]
        simp

theorem timestamp_per_returned_item_witness :
    ((∃ s₂ r, wireqDequeueOperation 0 sTs3 = some (s₂, r) ∧ r.status = 200 ∧
      s₂.requestTimestamps =
        sTs3.requestTimestamps.filter (fun ts => decide (0 - ts < 60)) ++
          List.replicate r.entries.length 0 ∧
      (lengthVisibleQueue sTs3 = 0 →
        r.entries = [] ∧ r.retryAfter = sTs3.retryAfter ∧
        s₂.requestTimestamps =
          sTs3.requestTimestamps.filter (fun ts => decide (0 - ts < 60)))) ∧
     (∃ s₂ r, wireqGetOperation 0 sTs3 = some (s₂, r) ∧ r.status = 200 ∧
      s₂.requestTimestamps =
        sTs3.requestTimestamps.filter (fun ts => decide (0 - ts < 60)) ++
          List.replicate r.entries.length 0 ∧
      (lengthVisibleQueue sTs3 = 0 →
        r.entries = [] ∧ r.retryAfter = sTs3.retryAfter ∧
        s₂.requestTimestamps =
          sTs3.requestTimestamps.filter (fun ts => decide (0 - ts < 60))))) ∧
    c10res.1.requestTimestamps = [0, 0, 0] ∧ c10res.2.entries.length = 3 :=
  ⟨timestamp_per_returned_item 0 sTs3 sTs3 (by decide) (by decide),
   by decide, by decide⟩

/-- C9: in both source variants the reclamation of expired leases runs
before the rate-limit check of every read call and before the
classification of every delete call, so a throttled read has already
applied reclamation (and window pruning) when it is rejected, and it
changes nothing else: its result state is exactly the reclaimed state
with the pruned window. -/

theorem reclamation_precedes_throttle {α : Type} [DecidableEq α]
    (now : Nat) (s s₁ : MockQueue α)
    (hrec : checkHiddenEntryLifetime now s = some s₁)
    (hth : windowCount now s₁ > s₁.maxRequestsPerMinute) :
    wireqDequeueOperation now s =
      some ({ s₁ with requestTimestamps := s₁.requestTimestamps.filter (fun ts => decide (now - ts < 60)) },
            ⟨429, [], s₁.retryAfterTooManyRequests⟩) ∧
    wireqGetOperation now s =
      some ({ s₁ with requestTimestamps := s₁.requestTimestamps.filter (fun ts => decide (now - ts < 60)) },
            ⟨429, [], s₁.retryAfterTooManyRequests⟩) ∧
    (∀ key, wireqDeleteOperation now key s = deleteClassified key s₁) ∧
    s₁.deletedUrls = s.deletedUrls ∧
    s₁.requestTimestamps = s.requestTimestamps ∧
    s₁.nextReceipt = s.nextReceipt ∧
    s₁.queue.length = s.queue.length ∧
    (∀ x ∈ s₁.hiddenQueue, x ∈ s.hiddenQueue) ∧
    (∃ u, s₁.timedOutReceipts = s.timedOutReceipts ++ u) := by
  obtain ⟨hfr, hmap, hlen, hsub, hu⟩ := checkHiddenEntryLifetime_frame hrec
  exact ⟨wireqDequeueOperation_throttled hrec hth,
    wireqGetOperation_throttled hrec hth,
    fun key => wireqDeleteOperation_eq hrec, frameRest_deletedUrls hfr,
    frameRest_requestTimestamps hfr, frameRest_nextReceipt hfr, hlen, hsub, hu⟩

theorem reclamation_precedes_throttle_witness :
    (wireqDequeueOperation 10 sC9 =
      some ({ sC9r with requestTimestamps := sC9r.requestTimestamps.filter (fun ts => decide (10 - ts < 60)) },
            ⟨429, [], sC9r.retryAfterTooManyRequests⟩) ∧
     wireqGetOperation 10 sC9 =
      some ({ sC9r with requestTimestamps := sC9r.requestTimestamps.filter (fun ts => decide (10 - ts < 60)) },
            ⟨429, [], sC9r.retryAfterTooManyRequests⟩) ∧
     (∀ key, wireqDeleteOperation 10 key sC9 = deleteClassified key sC9r) ∧
     sC9r.deletedUrls = sC9.deletedUrls ∧
     sC9r.requestTimestamps = sC9.requestTimestamps ∧
     sC9r.nextReceipt = sC9.nextReceipt ∧
     sC9r.queue.length = sC9.queue.length ∧
     (∀ x ∈ sC9r.hiddenQueue, x ∈ sC9.hiddenQueue) ∧
     (∃ u, sC9r.timedOutReceipts = sC9.timedOutReceipts ++ u)) ∧
    sC9r ≠ sC9 :=
  ⟨reclamation_precedes_throttle 10 sC9 sC9r (by decide) (by decide),
   by decide⟩

/-- C3 (amended): a read call is rejected as throttled exactly when the
pruned per-item timestamp count strictly exceeds `max_requests_per_minute`
(timestamps are recorded per returned item, not per call, and the check
is strict, so the (N+1)-th call need not be rejected); a rejected call
returns no entries, carries the throttle pacing hint, records no new
timestamp (its window is only pruned) and leaves all queue state as the
reclaimed state; enqueue and delete are never subject to the limit. -/

theorem throttle_strict_threshold {α : Type} [DecidableEq α]
    (now : Nat) (s s₁ : MockQueue α)
    (hrec : checkHiddenEntryLifetime now s = some s₁) :
    (∀ s₂ r, wireqDequeueOperation now s = some (s₂, r) →
      ((r.status = 429) ↔ windowCount now s₁ > s₁.maxRequestsPerMinute) ∧
      (r.status = 429 →
        r.entries = [] ∧ r.retryAfter = s₁.retryAfterTooManyRequests ∧
        s₂.requestTimestamps =
          s₁.requestTimestamps.filter (fun ts => decide (now - ts < 60)) ∧
        s₂.queue = s₁.queue ∧ s₂.hiddenQueue = s₁.hiddenQueue ∧
        s₂.deletedUrls = s₁.deletedUrls ∧
        s₂.timedOutReceipts = s₁.timedOutReceipts)) ∧
    (∀ s₂ r, wireqGetOperation now s = some (s₂, r) →
      ((r.status = 429) ↔ windowCount now s₁ > s₁.maxRequestsPerMinute) ∧
      (r.status = 429 →
        r.entries = [] ∧ r.retryAfter = s₁.retryAfterTooManyRequests ∧
        s₂.requestTimestamps =
          s₁.requestTimestamps.filter (fun ts => decide (now - ts < 60)) ∧
        s₂.queue = s₁.queue ∧ s₂.hiddenQueue = s₁.hiddenQueue ∧
        s₂.deletedUrls = s₁.deletedUrls ∧
        s₂.timedOutReceipts = s₁.timedOutReceipts)) ∧
    (∀ items : List α,
      (addToQueue s items).requestTimestamps = s.requestTimestamps) ∧
    (∀ key s₂ o, wireqDeleteOperation now key s = some (s₂, o) →
      statusOf o ≠ 429 ∧ s₂.requestTimestamps = s₁.requestTimestamps) := by
  refine ⟨?_, ?_, fun items => rfl, ?_⟩
  · intro s₂ r h
    by_cases hth : windowCount now s₁ > s₁.maxRequestsPerMinute
    · have heq := wireqDequeueOperation_throttled hrec hth
      rw [h] at heq
      injection heq with heq
      have hs2 : s₂ = _ := congrArg Prod.fst heq
      have hr : r = _ := congrArg Prod.snd heq
      subst hs2; subst hr
      exact ⟨⟨fun _ => hth, fun _ => rfl⟩,
        fun _ => ⟨rfl, rfl, rfl, rfl, rfl, rfl, rfl⟩⟩
    · obtain ⟨q₂, heq, -, -, -, -, -⟩ := wireqDequeueOperation_ok hrec hth
      rw [h] at heq
      injection heq with heq
      have hr : r = _ := congrArg Prod.snd heq
      have hst : r.status = 200 := by rw [hr]
      refine ⟨⟨fun hx => ?_, fun hx => absurd hx hth⟩, fun hx => ?_⟩
      · rw [hst] at hx; exact absurd hx (by decide)
      · rw [hst] at hx; exact absurd hx (by decide)
  · intro s₂ r h
    by_cases hth : windowCount now s₁ > s₁.maxRequestsPerMinute
    · have heq := wireqGetOperation_throttled hrec hth
      rw [h] at heq
      injection heq with heq
      have hs2 : s₂ = _ := congrArg Prod.fst heq
      have hr : r = _ := congrArg Prod.snd heq
      subst hs2; subst hr
      exact ⟨⟨fun _ => hth, fun _ => rfl⟩,
        fun _ => ⟨rfl, rfl, rfl, rfl, rfl, rfl, rfl⟩⟩
    · have heq := wireqGetOperation_ok hrec hth
      rw [h] at heq
      injection heq with heq
      have hr : r = _ := congrArg Prod.snd heq
      have hst : r.status = 200 := by rw [hr]
      refine ⟨⟨fun hx => ?_, fun hx => absurd hx hth⟩, fun hx => ?_⟩
      · rw [hst] at hx; exact absurd hx (by decide)
      · rw [hst] at hx; exact absurd hx (by decide)
  · intro key s₂ o h
    rw [wireqDeleteOperation_eq hrec] at h
    exact ⟨statusOf_ne_throttle o, deleteClassified_requestTimestamps h⟩

theorem throttle_threshold_counterexample :
    sC3.maxRequestsPerMinute = 1 ∧
    sC3.requestTimestamps = [0] ∧
    (wireqDequeueOperation 0 sC3).map (fun r => r.2.status) = some 200 ∧
    (200 : Nat) ≠ 429 := by decide

theorem throttle_strict_threshold_witness :
    (∀ s₂ r, wireqDequeueOperation 0 sC3 = some (s₂, r) →
      ((r.status = 429) ↔ windowCount 0 sC3 > sC3.maxRequestsPerMinute) ∧
      (r.status = 429 →
        r.entries = [] ∧ r.retryAfter = sC3.retryAfterTooManyRequests ∧
        s₂.requestTimestamps =
          sC3.requestTimestamps.filter (fun ts => decide (0 - ts < 60)) ∧
        s₂.queue = sC3.queue ∧ s₂.hiddenQueue = sC3.hiddenQueue ∧
        s₂.deletedUrls = sC3.deletedUrls ∧
        s₂.timedOutReceipts = sC3.timedOutReceipts)) ∧
    (∀ s₂ r, wireqGetOperation 0 sC3 = some (s₂, r) →
      ((r.status = 429) ↔ windowCount 0 sC3 > sC3.maxRequestsPerMinute) ∧
      (r.status = 429 →
        r.entries = [] ∧ r.retryAfter = sC3.retryAfterTooManyRequests ∧
        s₂.requestTimestamps =
          sC3.requestTimestamps.filter (fun ts => decide (0 - ts < 60)) ∧
        s₂.queue = sC3.queue ∧ s₂.hiddenQueue = sC3.hiddenQueue ∧
        s₂.deletedUrls = sC3.deletedUrls ∧
        s₂.timedOutReceipts = sC3.timedOutReceipts)) ∧
    (∀ items : List Nat,
      (addToQueue sC3 items).requestTimestamps = sC3.requestTimestamps) ∧
    (∀ key s₂ o, wireqDeleteOperation 0 key sC3 = some (s₂, o) →
      statusOf o ≠ 429 ∧ s₂.requestTimestamps = sC3.requestTimestamps) :=
  throttle_strict_threshold 0 sC3 sC3 (by decide)

/-! ### Full specification of reclamation on well-formed states -/

theorem nodup_split {γ δ : Type} (f : γ → δ) :
    ∀ {q : List γ} {e : γ}, (q.map f).Nodup → e ∈ q →
      ∃ l₁ l₂, q = l₁ ++ e :: l₂ ∧ (∀ x ∈ l₁, f x ≠ f e) ∧
        (∀ x ∈ l₂, f x ≠ f e) := by
  intro q
  induction q with
  | nil => intro e _ he; simp at he
  | cons y rest ih =>
    intro e hnd he
    rw [List.map_cons, List.nodup_cons] at hnd
    obtain ⟨hy, hnd⟩ := hnd
    rcases List.mem_cons.mp he with h1 | h1
    · subst h1
      refine ⟨[], rest, by simp, by simp, ?_⟩
      intro x hx hfx
      exact hy (hfx ▸ List.mem_map.mpr ⟨x, hx, rfl⟩)
    · obtain ⟨l₁, l₂, hsplit, hn₁, hn₂⟩ := ih hnd h1
      refine ⟨y :: l₁, l₂, by rw [hsplit]; rfl, ?_, hn₂⟩
      intro x hx
      rcases List.mem_cons.mp hx with h2 | h2
      · subst h2
        intro hfx
        exact hy (hfx ▸ List.mem_map.mpr ⟨e, h1, rfl⟩)
      · exact hn₁ x h2

theorem checkHiddenGo_spec {α : Type} [DecidableEq α] (now : Nat) :
    ∀ (hs : List (HEntry α)) (st : MockQueue α),
      ((hs.map (·.receipt)).Nodup) →
      (∀ h ∈ hs, h ∈ st.hiddenQueue) →
      ((st.queue.map (·.entry)).Nodup) →
      ((st.hiddenQueue.map (·.receipt)).Nodup) →
      (∀ x ∈ st.hiddenQueue, ∃ e ∈ st.queue, e.entry = x.entry) →
      ∃ st', checkHiddenGo now hs st = some st' ∧
        List.Sublist st'.hiddenQueue st.hiddenQueue ∧
        (∀ e ∈ st.queue, e.visible = true → e ∈ st'.queue) ∧
        (∀ h ∈ hs, now - h.timestamp > st.receiptLifetimeDuration →
          (⟨h.entry, true⟩ : Entry α) ∈ st'.queue ∧ h ∉ st'.hiddenQueue ∧
          h.receipt ∈ st'.timedOutReceipts) ∧
        (∀ e ∈ st.queue,
          (∀ h ∈ hs, now - h.timestamp > st.receiptLifetimeDuration →
            h.entry ≠ e.entry) → e ∈ st'.queue) ∧
        (∀ e ∈ st'.queue, e.visible = false → e ∈ st.queue) ∧
        (∀ x ∈ st.hiddenQueue,
          (∀ h ∈ hs, now - h.timestamp > st.receiptLifetimeDuration → x ≠ h) →
          x ∈ st'.hiddenQueue) := by
  intro hs
  induction hs with
  | nil =>
    intro st _ _ _ _ _
    refine ⟨st, rfl, List.Sublist.refl _, fun e he _ => he, ?_, fun e he _ => he,
      fun e he _ => he, fun x hx _ => hx⟩
    intro h hmem
    simp at hmem
  | cons h rest ih =>
    intro st hsn hsub hq hrn hpay
    have hhq : h ∈ st.hiddenQueue := hsub h (List.mem_cons_self _ _)
    rw [List.map_cons, List.nodup_cons] at hsn
    obtain ⟨hrecn, hsn⟩ := hsn
    have hneh : ∀ h' ∈ rest, h' ≠ h := by
      intro h' hh' hcontra
      exact hrecn (hcontra ▸ List.mem_map.mpr ⟨h', hh', rfl⟩)
    by_cases hc : now - h.timestamp > st.receiptLifetimeDuration
    · obtain ⟨e₀, he₀q, he₀⟩ := hpay h hhq
      obtain ⟨l₁, l₂, hsplit, hn₁, hn₂⟩ := nodup_split (·.entry) hq he₀q
      obtain ⟨hq₁, hrem⟩ := pyRemove_of_mem hhq
      have hscan := reclaimScan_one h l₁ l₂ e₀ st.hiddenQueue hq₁
        st.timedOutReceipts
        (fun x hx => by rw [← he₀]; exact hn₁ x hx)
        (fun x hx => by rw [← he₀]; exact hn₂ x hx) he₀ hrem
      have hgo : checkHiddenGo now (h :: rest) st =
          checkHiddenGo now rest
            { st with queue := l₁ ++ (⟨h.entry, true⟩ : Entry α) :: l₂,
                      hiddenQueue := hq₁,
                      timedOutReceipts := st.timedOutReceipts ++ [h.receipt] } := by
        show (if now - h.timestamp > st.receiptLifetimeDuration then _ else _) = _
        rw [if_pos hc, hsplit, hscan, Option.some_bind]
      obtain ⟨m₁, m₂, hhqsplit, hhqres, -⟩ := pyRemove_shape hrem
      have hsubl : List.Sublist hq₁ st.hiddenQueue := by
        rw [hhqsplit, hhqres]
        exact List.Sublist.append_left (List.sublist_cons_self h m₂) m₁
      have hq' : (((l₁ ++ (⟨h.entry, true⟩ : Entry α) :: l₂) :
          List (Entry α)).map (·.entry)).Nodup := by
        have : ((l₁ ++ (⟨h.entry, true⟩ : Entry α) :: l₂).map (·.entry)) =
            ((l₁ ++ e₀ :: l₂).map (·.entry)) := by
          simp [he₀]
        rw [this, ← hsplit]
        exact hq
      have hrn' : ((hq₁.map (·.receipt)).Nodup) := by
        obtain ⟨n₁, n₂, hm, hm'⟩ := pyRemove_map (·.receipt) hrem
        rw [hm']
        exact nodup_of_append_cons_append (hm ▸ hrn)
      have hsub' : ∀ h' ∈ rest, h' ∈ hq₁ := by
        intro h' hh'
        exact (pyRemove_mem_of_ne hrem (hneh h' hh')).mpr (hsub h' (List.mem_cons_of_mem _ hh'))
      have hpay' : ∀ x ∈ hq₁, ∃ e ∈ (l₁ ++ (⟨h.entry, true⟩ : Entry α) :: l₂),
          e.entry = x.entry := by
        intro x hx
        obtain ⟨e, heq, hee⟩ := hpay x (pyRemove_subset hrem x hx)
        rw [hsplit] at heq
        rcases List.mem_append.mp heq with h1 | h1
        · exact ⟨e, List.mem_append.mpr (Or.inl h1), hee⟩
        · rcases List.mem_cons.mp h1 with h2 | h2
          · refine ⟨⟨h.entry, true⟩, List.mem_append.mpr (Or.inr (List.mem_cons_self _ _)), ?_⟩
            rw [← hee, h2, he₀]
          · exact ⟨e, List.mem_append.mpr (Or.inr (List.mem_cons_of_mem _ h2)), hee⟩
      obtain ⟨st', hgo', hsl, hvis, hexp, hkeep, hinvis, hhkeep⟩ :=
        ih { st with queue := l₁ ++ (⟨h.entry, true⟩ : Entry α) :: l₂,
                     hiddenQueue := hq₁,
                     timedOutReceipts := st.timedOutReceipts ++ [h.receipt] }
          hsn hsub' hq' hrn' hpay'
      obtain ⟨hfr', -, -, -, u', hu'⟩ := checkHiddenGo_frame now rest _ st' hgo'
      have hmemst₁ : ∀ e ∈ st.queue, e ≠ e₀ →
          e ∈ (l₁ ++ (⟨h.entry, true⟩ : Entry α) :: l₂) := by
        intro e he hne
        rw [hsplit] at he
        rcases List.mem_append.mp he with h1 | h1
        · exact List.mem_append.mpr (Or.inl h1)
        · rcases List.mem_cons.mp h1 with h2 | h2
          · exact absurd h2 hne
          · exact List.mem_append.mpr (Or.inr (List.mem_cons_of_mem _ h2))
      refine ⟨st', by rw [hgo]; exact hgo', hsl.trans hsubl, ?_, ?_, ?_, ?_, ?_⟩
      · intro e he hv
        by_cases hne : e = e₀
        · subst hne
          have : e = ⟨h.entry, true⟩ := by
            cases e with
            | mk a v =>
              simp only at hv he₀ ⊢
              rw [hv] at *
              rw [← he₀]
          rw [this]
          exact hvis _ (List.mem_append.mpr (Or.inr (List.mem_cons_self _ _))) rfl
        · exact hvis e (hmemst₁ e he hne) hv
      · intro h' hh' hc'
        rcases List.mem_cons.mp hh' with h1 | h1
        · subst h1
          refine ⟨?_, ?_, ?_⟩
          · exact hvis _ (List.mem_append.mpr (Or.inr (List.mem_cons_self _ _))) rfl
          · intro hcontra
            have hnot : h' ∉ hq₁ := by
              apply pyRemove_not_mem_self hrem
              exact List.Nodup.of_map _ hrn
            exact hnot (hsl.subset hcontra)
          · rw [hu']
            exact List.mem_append.mpr (Or.inl (List.mem_append.mpr
              (Or.inr (List.mem_cons_self _ _))))
        · exact hexp h' h1 hc'
      · intro e he hnone
        have hne : e ≠ e₀ := by
          intro hcontra
          exact hnone h (List.mem_cons_self _ _) hc
            (by rw [hcontra, he₀])
        exact hkeep e (hmemst₁ e he hne)
          (fun h' hh' hc' => hnone h' (List.mem_cons_of_mem _ hh') hc')
      · intro e' he' hv
        have h1 := hinvis e' he' hv
        rcases List.mem_append.mp h1 with h2 | h2
        · rw [hsplit]
          exact List.mem_append.mpr (Or.inl h2)
        · rcases List.mem_cons.mp h2 with h3 | h3
          · exfalso
            rw [h3] at hv
            exact Bool.noConfusion hv
          · rw [hsplit]
            exact List.mem_append.mpr (Or.inr (List.mem_cons_of_mem _ h3))
      · intro x hx hnone
        have hne : x ≠ h := hnone h (List.mem_cons_self _ _) hc
        have hx₁ : x ∈ hq₁ := (pyRemove_mem_of_ne hrem hne).mpr hx
        exact hhkeep x hx₁
          (fun h' hh' hc' => hnone h' (List.mem_cons_of_mem _ hh') hc')
    · have hgo : checkHiddenGo now (h :: rest) st = checkHiddenGo now rest st := by
        show (if now - h.timestamp > st.receiptLifetimeDuration then _ else _) = _
        rw [if_neg hc]
      obtain ⟨st', hgo', hsl, hvis, hexp, hkeep, hinvis, hhkeep⟩ :=
        ih st hsn (fun h' hh' => hsub h' (List.mem_cons_of_mem _ hh')) hq hrn hpay
      refine ⟨st', by rw [hgo]; exact hgo', hsl, hvis, ?_, ?_, hinvis, ?_⟩
      · intro h' hh' hc'
        rcases List.mem_cons.mp hh' with h1 | h1
        · exact absurd (h1 ▸ hc') hc
        · exact hexp h' h1 hc'
      · intro e he hnone
        exact hkeep e he (fun h' hh' hc' => hnone h' (List.mem_cons_of_mem _ hh') hc')
      · intro x hx hnone
        exact hhkeep x hx (fun h' hh' hc' => hnone h' (List.mem_cons_of_mem _ hh') hc')

theorem checkHiddenEntryLifetime_spec {α : Type} [DecidableEq α]
    (now : Nat) (s : MockQueue α)
    (hq : (s.queue.map (·.entry)).Nodup)
    (hrn : (s.hiddenQueue.map (·.receipt)).Nodup)
    (hpay : ∀ x ∈ s.hiddenQueue, ∃ e ∈ s.queue, e.entry = x.entry) :
    ∃ s₁, checkHiddenEntryLifetime now s = some s₁ ∧
      List.Sublist s₁.hiddenQueue s.hiddenQueue ∧
      (∀ e ∈ s.queue, e.visible = true → e ∈ s₁.queue) ∧
      (∀ h ∈ s.hiddenQueue, now - h.timestamp > s.receiptLifetimeDuration →
        (⟨h.entry, true⟩ : Entry α) ∈ s₁.queue ∧ h ∉ s₁.hiddenQueue ∧
        h.receipt ∈ s₁.timedOutReceipts) ∧
      (∀ e ∈ s.queue,
        (∀ h ∈ s.hiddenQueue, now - h.timestamp > s.receiptLifetimeDuration →
          h.entry ≠ e.entry) → e ∈ s₁.queue) ∧
      (∀ e ∈ s₁.queue, e.visible = false → e ∈ s.queue) ∧
      (∀ x ∈ s.hiddenQueue, ¬(now - x.timestamp > s.receiptLifetimeDuration) →
        x ∈ s₁.hiddenQueue) := by
  obtain ⟨s₁, hgo, hsl, hvis, hexp, hkeep, hinvis, hhkeep⟩ :=
    checkHiddenGo_spec now s.hiddenQueue s hrn (fun h hh => hh) hq hrn hpay
  refine ⟨s₁, hgo, hsl, hvis, hexp, hkeep, hinvis, ?_⟩
  intro x hx hnx
  exact hhkeep x hx (fun h' hh' hc' hcontra => hnx (hcontra ▸ hc'))

/-- C2 (amended): provided the queue payloads are pairwise distinct, the
lease receipts are pairwise distinct, and every lease's payload is
present in the queue — all of which hold on states reachable with
pairwise-distinct enqueued payloads — the reclamation performed at the
start of the next call destroys every lease whose age strictly exceeds
`receipt_lifetime_duration`, adds its receipt to the timed-out set,
reverts its entry to visible (so the payload is in the visible list and
eligible for re-selection), and leaves leases of age at most the
duration active; a later delete of the old receipt (whose own
reclamation pass succeeds, as long as the receipt was never successfully
deleted) is classified `expired`.  Without the distinctness proviso the
claim fails: the reclamation scan raises `ValueError` (see the
counterexample). -/

theorem expiry_reinstatement {α : Type} [DecidableEq α]
    (now : Nat) (s : MockQueue α)
    (hq : (s.queue.map (·.entry)).Nodup)
    (hrn : (s.hiddenQueue.map (·.receipt)).Nodup)
    (hpay : ∀ x ∈ s.hiddenQueue, ∃ e ∈ s.queue, e.entry = x.entry) :
    ∃ s₁, checkHiddenEntryLifetime now s = some s₁ ∧
      (∀ h ∈ s.hiddenQueue, now - h.timestamp > s.receiptLifetimeDuration →
        h ∉ s₁.hiddenQueue ∧
        h.receipt ∈ s₁.timedOutReceipts ∧
        (⟨h.entry, true⟩ : Entry α) ∈ s₁.queue ∧
        h.entry ∈ visibleItems s₁ ∧
        (h.receipt ∉ s.deletedUrls →
          deleteClassified h.receipt s₁ = some (s₁, .expired)) ∧
        (∀ (ops : List (Op α)) s₃ outs rem, run s₁ ops = some (s₃, outs, rem) →
          ∀ now₂ s₄, checkHiddenEntryLifetime now₂ s₃ = some s₄ →
            h.receipt ∉ s₄.deletedUrls →
            wireqDeleteOperation now₂ h.receipt s₃ = some (s₄, .expired))) ∧
      (∀ h ∈ s.hiddenQueue, now - h.timestamp ≤ s.receiptLifetimeDuration →
        h ∈ s₁.hiddenQueue) := by
  obtain ⟨s₁, hgo, hsl, hvis, hexp, hkeep, hinvis, hhkeep⟩ :=
    checkHiddenEntryLifetime_spec now s hq hrn hpay
  obtain ⟨hfr, -, -, -, u, hu⟩ := checkHiddenEntryLifetime_frame hgo
  refine ⟨s₁, hgo, ?_, ?_⟩
  · intro h hh hc
    obtain ⟨hq', hnot, hrcpt⟩ := hexp h hh hc
    refine ⟨hnot, hrcpt, hq', ?_, ?_, ?_⟩
    · exact List.mem_map.mpr ⟨⟨h.entry, true⟩,
        List.mem_filter.mpr ⟨hq', rfl⟩, rfl⟩
    · intro hnd
      have hnd₁ : h.receipt ∉ s₁.deletedUrls := by
        rw [frameRest_deletedUrls hfr]
        exact hnd
      exact deleteClassified_expired hnd₁ hrcpt
    · intro ops s₃ outs rem hrun now₂ s₄ hrec₂ hnd₄
      obtain ⟨-, -, htmono⟩ := run_shape ops s₁ s₃ outs rem hrun
      have ht₃ : h.receipt ∈ s₃.timedOutReceipts := htmono _ hrcpt
      obtain ⟨-, -, -, -, u₄, hu₄⟩ := checkHiddenEntryLifetime_frame hrec₂
      have ht₄ : h.receipt ∈ s₄.timedOutReceipts := by
        rw [hu₄]
        exact List.mem_append.mpr (Or.inl ht₃)
      rw [wireqDeleteOperation_eq hrec₂]
      exact deleteClassified_expired hnd₄ ht₄
  · intro h hh hc
    exact hhkeep h hh (by omega)

theorem expiry_reinstatement_witness :
    ∃ s₁, checkHiddenEntryLifetime 300 sC2w = some s₁ ∧
      (∀ h ∈ sC2w.hiddenQueue,
        300 - h.timestamp > sC2w.receiptLifetimeDuration →
        h ∉ s₁.hiddenQueue ∧
        h.receipt ∈ s₁.timedOutReceipts ∧
        (⟨h.entry, true⟩ : Entry Nat) ∈ s₁.queue ∧
        h.entry ∈ visibleItems s₁ ∧
        (h.receipt ∉ sC2w.deletedUrls →
          deleteClassified h.receipt s₁ = some (s₁, .expired)) ∧
        (∀ (ops : List (Op Nat)) s₃ outs rem, run s₁ ops = some (s₃, outs, rem) →
          ∀ now₂ s₄, checkHiddenEntryLifetime now₂ s₃ = some s₄ →
            h.receipt ∉ s₄.deletedUrls →
            wireqDeleteOperation now₂ h.receipt s₃ = some (s₄, .expired))) ∧
      (∀ h ∈ sC2w.hiddenQueue,
        300 - h.timestamp ≤ sC2w.receiptLifetimeDuration →
        h ∈ s₁.hiddenQueue) :=
  expiry_reinstatement 300 sC2w (by decide) (by decide) (by decide)

theorem expiry_reinstatement_counterexample :
    (∃ h ∈ sC2dup.hiddenQueue,
      300 - h.timestamp > sC2dup.receiptLifetimeDuration) ∧
    checkHiddenEntryLifetime 300 sC2dup = none ∧
    wireqDequeueOperation 300 sC2dup = none ∧
    wireqGetOperation 300 sC2dup = none ∧
    wireqDeleteOperation 300 0 sC2dup = none := by decide

/-! ### FIFO behaviour of reads issued at a fixed instant -/

theorem step_read_fifo {α : Type} [DecidableEq α] {op : Op α}
    {s s₁ : MockQueue α} {out : List α} {rem : Nat}
    (hop : op = Op.get 0 ∨ op = Op.dequeue 0)
    (hts : ∀ h ∈ s.hiddenQueue, h.timestamp = 0)
    (h : step op s = some (s₁, out, rem)) :
    out ++ visibleItems s₁ = visibleItems s ∧
    out.length ≤ s.maxItemsReturned ∧
    (∀ h ∈ s₁.hiddenQueue, h.timestamp = 0) ∧
    s₁.maxItemsReturned = s.maxItemsReturned := by
  have hrec : checkHiddenEntryLifetime 0 s = some s :=
    checkHiddenEntryLifetime_noop (fun x hx => by
      rw [hts x hx]; exact Nat.zero_le _)
  rcases hop with hop | hop
  · subst hop
    simp only [step, Option.map_eq_some'] at h
    obtain ⟨⟨s₂, resp⟩, hgo, heq⟩ := h
    simp only [Prod.mk.injEq] at heq
    obtain ⟨hs₁, hout, -⟩ := heq
    subst hs₁
    by_cases hth : windowCount 0 s > s.maxRequestsPerMinute
    · have hthr := wireqGetOperation_throttled hrec hth
      rw [hgo] at hthr
      injection hthr with hthr
      have hs2 : s₂ = _ := congrArg Prod.fst hthr
      have hr : resp = _ := congrArg Prod.snd hthr
      subst hs2; subst hr
      rw [← hout]
      exact ⟨rfl, by simp, hts, rfl⟩
    · have hok := wireqGetOperation_ok hrec hth
      rw [hgo] at hok
      injection hok with hok
      have hs2 : s₂ = _ := congrArg Prod.fst hok
      have hr : resp = _ := congrArg Prod.snd hok
      subst hs2; subst hr
      rw [← hout]
      have hflip := markFirstVisible_flipped s.queue s.maxItemsReturned
      have hfilt := markFirstVisible_filter_vis s.queue s.maxItemsReturned
      have hlenflip : (markFirstVisible s.maxItemsReturned s.queue).2.length ≤
          ((List.range (markFirstVisible s.maxItemsReturned s.queue).2.length).map
            (s.nextReceipt + ·)).length := by
        simp
      refine ⟨?_, ?_, ?_, rfl⟩
      · show ((getFirstXVisibleItems 0 s.maxItemsReturned
            { s with requestTimestamps := s.requestTimestamps.filter (fun ts => decide (0 - ts < 60)) }).2.map Prod.fst) ++ _ = _
        rw [getFirstX_pairs]
        show ((markFirstVisible s.maxItemsReturned s.queue).2.zip _).map
            Prod.fst ++ _ = _
        rw [List.map_fst_zip _ _ hlenflip]
        show (markFirstVisible s.maxItemsReturned s.queue).2 ++
            ((getFirstXVisibleItems 0 s.maxItemsReturned
              { s with requestTimestamps := s.requestTimestamps.filter (fun ts => decide (0 - ts < 60)) }).1.queue.filter
                (·.visible)).map (·.entry) = visibleItems s
        rw [getFirstX_queue]
        show (markFirstVisible s.maxItemsReturned s.queue).2 ++
            ((markFirstVisible s.maxItemsReturned s.queue).1.filter
              (·.visible)).map (·.entry) = visibleItems s
        rw [hflip, hfilt, ← List.map_append, List.take_append_drop]
        rfl
      · show ((getFirstXVisibleItems 0 s.maxItemsReturned
            { s with requestTimestamps := s.requestTimestamps.filter (fun ts => decide (0 - ts < 60)) }).2.map Prod.fst).length ≤ _
        rw [getFirstX_pairs]
        show (((markFirstVisible s.maxItemsReturned s.queue).2.zip _).map
            Prod.fst).length ≤ _
        rw [List.map_fst_zip _ _ hlenflip, hflip]
        simp only [List.length_map, List.length_take]
        omega
      · intro x hx
        rw [getFirstX_hiddenQueue] at hx
        rcases List.mem_append.mp hx with h1 | h1
        · exact hts x h1
        · obtain ⟨pr, -, hpr⟩ := List.mem_map.mp h1
          rw [← hpr]
  · subst hop
    simp only [step, Option.map_eq_some'] at h
    obtain ⟨⟨s₂, resp⟩, hgo, heq⟩ := h
    simp only [Prod.mk.injEq] at heq
    obtain ⟨hs₁, hout, -⟩ := heq
    subst hs₁
    by_cases hth : windowCount 0 s > s.maxRequestsPerMinute
    · have hthr := wireqDequeueOperation_throttled hrec hth
      rw [hgo] at hthr
      injection hthr with hthr
      have hs2 : s₂ = _ := congrArg Prod.fst hthr
      have hr : resp = _ := congrArg Prod.snd hthr
      subst hs2; subst hr
      rw [← hout]
      exact ⟨rfl, by simp, hts, rfl⟩
    · obtain ⟨q₂, hok, hvv, hinv, hlen, hmem, -⟩ := wireqDequeueOperation_ok hrec hth
      rw [hgo] at hok
      injection hok with hok
      have hs2 : s₂ = _ := congrArg Prod.fst hok
      have hr : resp = _ := congrArg Prod.snd hok
      subst hs2; subst hr
      rw [← hout]
      refine ⟨?_, ?_, hts, rfl⟩
      · show ((s.queue.filter (·.visible)).take s.maxItemsReturned).map
            (·.entry) ++ (q₂.filter (·.visible)).map (·.entry) = visibleItems s
        rw [hvv, ← List.map_append, List.take_append_drop]
        rfl
      · show (((s.queue.filter (·.visible)).take s.maxItemsReturned).map
            (·.entry)).length ≤ _
        simp only [List.length_map, List.length_take]
        omega

theorem run_reads_fifo {α : Type} [DecidableEq α] :
    ∀ (ops : List (Op α)),
      (∀ op ∈ ops, op = Op.get 0 ∨ op = Op.dequeue 0) →
      ∀ (s s' : MockQueue α) (outs : List (List α)) (rem : Nat),
        (∀ h ∈ s.hiddenQueue, h.timestamp = 0) →
        run s ops = some (s', outs, rem) →
        outs.flatten ++ visibleItems s' = visibleItems s ∧
        (∀ out ∈ outs, out.length ≤ s.maxItemsReturned) := by
  intro ops
  induction ops with
  | nil =>
    intro _ s s' outs rem _ h
    simp only [run, Option.some.injEq, Prod.mk.injEq] at h
    obtain ⟨hs', houts, -⟩ := h
    subst hs'
    rw [← houts]
    exact ⟨by simp, by simp⟩
  | cons op ops ih =>
    intro hops s s' outs rem hts h
    simp only [run, Option.bind_eq_some, Option.map_eq_some'] at h
    obtain ⟨⟨s₁, out₁, rem₁⟩, hstep, ⟨s₂, outs₂, rem₂⟩, hrun, heq⟩ := h
    simp only [Prod.mk.injEq] at heq
    obtain ⟨hs', houts, -⟩ := heq
    subst hs'
    obtain ⟨hfifo, hlen, hts₁, hmx⟩ :=
      step_read_fifo (hops op (List.mem_cons_self _ _)) hts hstep
    obtain ⟨hfifo₂, hlen₂⟩ :=
      ih (fun o ho => hops o (List.mem_cons_of_mem _ ho)) s₁ s₂ outs₂ rem₂
        hts₁ hrun
    rw [← houts]
    constructor
    · show (out₁ :: outs₂).flatten ++ visibleItems s₂ = visibleItems s
      rw [List.flatten_cons, List.append_assoc, hfifo₂, hfifo]
    · intro out hout
      rcases List.mem_cons.mp hout with h1 | h1
      · exact h1 ▸ hlen
      · exact hmx ▸ hlen₂ out h1

theorem visibleItems_fresh {α : Type} (mx ra ramd ratmr mrpm rld : Nat)
    (E : List α) :
    visibleItems (addToQueue (MockQueue.init α mx ra ramd ratmr mrpm rld) E) =
      E := by
  show ((([] : List (Entry α)) ++
      E.map (fun a => (⟨a, true⟩ : Entry α))).filter
    (·.visible)).map (·.entry) = E
  rw [List.nil_append]
  induction E with
  | nil => rfl
  | cons x rest ih => simpa using ih

/-- C5: starting from any freshly enqueued backlog `E`, any sequence of
`Get`/`Dequeue` calls with no lease expiry in between (modelled by all
calls happening at the creation instant of the leases) returns, in
concatenation, exactly a prefix of `E` in arrival order — no duplicates,
no omissions, oldest first — and each call returns at most
`max_items_returned` items. -/

theorem fifo_arrival_order {α : Type} [DecidableEq α]
    (mx ra ramd ratmr mrpm rld : Nat) (E : List α) (ops : List (Op α))
    (s' : MockQueue α) (outs : List (List α)) (rem : Nat)
    (hops : ∀ op ∈ ops, op = Op.get 0 ∨ op = Op.dequeue 0)
    (hrun : run (addToQueue (MockQueue.init α mx ra ramd ratmr mrpm rld) E)
      ops = some (s', outs, rem)) :
    outs.flatten = E.take outs.flatten.length ∧
    (∀ out ∈ outs, out.length ≤ mx) := by
  obtain ⟨hfifo, hlen⟩ := run_reads_fifo ops hops _ s' outs rem
    (by intro h hh; simp [addToQueue, MockQueue.init] at hh) hrun
  rw [visibleItems_fresh] at hfifo
  constructor
  · rw [← hfifo, List.take_left]
  · exact hlen

theorem fifo_arrival_order_witness :
    (c5run.2.1.flatten = ([1, 2, 3] : List Nat).take c5run.2.1.flatten.length ∧
      (∀ out ∈ c5run.2.1, out.length ≤ 2)) ∧
    c5run.2.1 = [[1, 2], [3], []] :=
  ⟨fifo_arrival_order 2 100 10 360 30 200 [1, 2, 3]
      [.dequeue 0, .get 0, .dequeue 0] c5run.1 c5run.2.1 c5run.2.2
      (by decide) (by decide),
   by decide⟩

theorem annotateEntry_of_absent (p : Item) (r : Nat)
    (h : p.lookup wireqReceiptKey = none) :
    annotateEntry p r = p ++ [(wireqReceiptKey, r)] := by
  unfold annotateEntry setKey
  rw [h]
  rfl

/-- No operation ever rewrites a stored payload: every payload present in
the queue after a step was already in the queue or among the newly
enqueued items. -/

theorem step_payload_provenance {α : Type} [DecidableEq α]
    {op : Op α} {s s' : MockQueue α} {out : List α} {rem : Nat}
    (h : step op s = some (s', out, rem)) :
    ∀ p ∈ s'.queue.map (·.entry),
      p ∈ s.queue.map (·.entry) ∨ p ∈ opItems op := by
  cases op with
  | enqueue items =>
    simp only [step, Option.some.injEq, Prod.mk.injEq] at h
    obtain ⟨hs', -, -⟩ := h
    subst hs'
    intro p hp
    simp only [addToQueue, List.map_append, List.map_map] at hp
    rcases List.mem_append.mp hp with h1 | h1
    · exact Or.inl h1
    · right
      obtain ⟨a, ha, hpa⟩ := List.mem_map.mp h1
      simpa [opItems, ← hpa] using ha
  | get now =>
    simp only [step, Option.map_eq_some'] at h
    obtain ⟨⟨s₂, resp⟩, hop, heq⟩ := h
    simp only [Prod.mk.injEq] at heq
    obtain ⟨hs', -, -⟩ := heq
    subst hs'
    obtain ⟨hmap, -, -, -⟩ := wireqGetOperation_shape hop
    intro p hp
    exact Or.inl (hmap ▸ hp)
  | dequeue now =>
    simp only [step, Option.map_eq_some'] at h
    obtain ⟨⟨s₂, resp⟩, hop, heq⟩ := h
    simp only [Prod.mk.injEq] at heq
    obtain ⟨hs', -, -⟩ := heq
    subst hs'
    obtain ⟨-, hmem, -, -⟩ := wireqDequeueOperation_shape hop
    intro p hp
    exact Or.inl (hmem p hp)
  | delete now key =>
    simp only [step, Option.map_eq_some'] at h
    obtain ⟨⟨s₂, o⟩, hop, heq⟩ := h
    simp only [Prod.mk.injEq] at heq
    obtain ⟨hs', -, -⟩ := heq
    subst hs'
    obtain ⟨-, -, -, hmem⟩ := wireqDeleteOperation_shape hop
    intro p hp
    exact Or.inl (hmem p hp)

/-- C7 (amended): payloads pass through the engine unmodified — dequeue
returns the stored payloads verbatim and every stored payload originates
from an enqueue; the leased copy returned by get is the stored payload
with the `_wireq_receipt` key set to a receipt that is fresh and distinct
per item and per lease.  When the enqueued payload does not already
contain `_wireq_receipt` (the intended case) the copy equals the payload
with exactly that one field appended; a payload that already carries the
key instead has it overwritten in the copy (see the counterexample). -/

theorem payload_passthrough_and_annotation
    (now : Nat) (s s₁ : MockQueue Item)
    (hrec : checkHiddenEntryLifetime now s = some s₁)
    (hnt : ¬ windowCount now s₁ > s₁.maxRequestsPerMinute) :
    (∀ (p : Item) (r : Nat), p.lookup wireqReceiptKey = none →
      annotateEntry p r = p ++ [(wireqReceiptKey, r)]) ∧
    (∃ s₂ r, wireqGetOperation now s = some (s₂, r) ∧
      wireqGetReturnedDocs now s =
        some (r.entries.map (fun pr => annotateEntry pr.1 pr.2)) ∧
      r.entries.map Prod.fst =
        ((s₁.queue.filter (·.visible)).take s₁.maxItemsReturned).map
          (·.entry) ∧
      s₂.queue.map (·.entry) = s₁.queue.map (·.entry) ∧
      (r.entries.map (·.2)).Nodup ∧
      (∀ x ∈ r.entries.map (·.2), s₁.nextReceipt ≤ x) ∧
      s₂.nextReceipt = s₁.nextReceipt + r.entries.length) ∧
    (∃ s₂ r, wireqDequeueOperation now s = some (s₂, r) ∧
      r.entries =
        ((s₁.queue.filter (·.visible)).take s₁.maxItemsReturned).map
          (·.entry)) ∧
    (∀ (op : Op Item) (t t' : MockQueue Item) (out : List Item) (rem : Nat),
      step op t = some (t', out, rem) →
      ∀ p ∈ t'.queue.map (·.entry),
        p ∈ t.queue.map (·.entry) ∨ p ∈ opItems op) := by
  refine ⟨annotateEntry_of_absent, ?_, ?_,
    fun op t t' out rem h => step_payload_provenance h⟩
  · have hok := wireqGetOperation_ok hrec hnt
    refine ⟨_, _, hok, ?_, ?_, ?_, ?_, ?_, ?_⟩
    · unfold wireqGetReturnedDocs
      rw [hok, Option.map_some']
    · show ((getFirstXVisibleItems now s₁.maxItemsReturned
          { s₁ with requestTimestamps := s₁.requestTimestamps.filter (fun ts => decide (now - ts < 60)) }).2.map Prod.fst) = _
      rw [getFirstX_pairs]
      rw [List.map_fst_zip _ _ (by simp)]
      exact markFirstVisible_flipped _ _
    · show (getFirstXVisibleItems now s₁.maxItemsReturned
          { s₁ with requestTimestamps := s₁.requestTimestamps.filter (fun ts => decide (now - ts < 60)) }).1.queue.map (·.entry) = _
      rw [getFirstX_queue]
      exact markFirstVisible_map_entry _ _
    · show ((getFirstXVisibleItems now s₁.maxItemsReturned
          { s₁ with requestTimestamps := s₁.requestTimestamps.filter (fun ts => decide (now - ts < 60)) }).2.map (·.2)).Nodup
      rw [getFirstX_pairs]
      rw [List.map_snd_zip _ _ (by simp)]
      exact List.Nodup.map (fun a b hab => by omega) (List.nodup_range _)
    · intro x hx
      rw [show ((getFirstXVisibleItems now s₁.maxItemsReturned
          { s₁ with requestTimestamps := s₁.requestTimestamps.filter (fun ts => decide (now - ts < 60)) }).2.map (·.2)) = (List.range (markFirstVisible s₁.maxItemsReturned s₁.queue).2.length).map (s₁.nextReceipt + ·) from by
            rw [getFirstX_pairs]; exact List.map_snd_zip _ _ (by simp)] at hx
      obtain ⟨i, -, hix⟩ := List.mem_map.mp hx
      omega
    · show (getFirstXVisibleItems now s₁.maxItemsReturned
          { s₁ with requestTimestamps := s₁.requestTimestamps.filter (fun ts => decide (now - ts < 60)) }).1.nextReceipt = _
      rw [getFirstX_nextReceipt, getFirstX_pairs]
      congr 1
      rw [List.length_zip, List.length_map, List.length_range, Nat.min_self]
  · obtain ⟨q₂, heq, -, -, -, -, -⟩ := wireqDequeueOperation_ok hrec hnt
    exact ⟨_, _, heq, rfl⟩

theorem annotation_overwrite_counterexample :
    wireqGetReturnedDocs 0 sC7 = some [[(wireqReceiptKey, 0)]] ∧
    ([(wireqReceiptKey, 0)] : Item) ≠ pC7 ++ [(wireqReceiptKey, 0)] ∧
    ([(wireqReceiptKey, 0)] : Item).length = pC7.length ∧
    sC7.queue.map (·.entry) = [pC7] := by decide

theorem payload_passthrough_and_annotation_witness :
    (∀ (p : Item) (r : Nat), p.lookup wireqReceiptKey = none →
      annotateEntry p r = p ++ [(wireqReceiptKey, r)]) ∧
    (∃ s₂ r, wireqGetOperation 0 sC7ok = some (s₂, r) ∧
      wireqGetReturnedDocs 0 sC7ok =
        some (r.entries.map (fun pr => annotateEntry pr.1 pr.2)) ∧
      r.entries.map Prod.fst =
        ((sC7ok.queue.filter (·.visible)).take sC7ok.maxItemsReturned).map
          (·.entry) ∧
      s₂.queue.map (·.entry) = sC7ok.queue.map (·.entry) ∧
      (r.entries.map (·.2)).Nodup ∧
      (∀ x ∈ r.entries.map (·.2), sC7ok.nextReceipt ≤ x) ∧
      s₂.nextReceipt = sC7ok.nextReceipt + r.entries.length) ∧
    (∃ s₂ r, wireqDequeueOperation 0 sC7ok = some (s₂, r) ∧
      r.entries =
        ((sC7ok.queue.filter (·.visible)).take sC7ok.maxItemsReturned).map
          (·.entry)) ∧
    (∀ (op : Op Item) (t t' : MockQueue Item) (out : List Item) (rem : Nat),
      step op t = some (t', out, rem) →
      ∀ p ∈ t'.queue.map (·.entry),
        p ∈ t.queue.map (·.entry) ∨ p ∈ opItems op) :=
  payload_passthrough_and_annotation 0 sC7ok sC7ok (by decide) (by decide)

/-- Two members of a list with equal images under `f` coincide when the
mapped list has no duplicates. -/

theorem nodup_map_mem_eq {γ δ : Type} (f : γ → δ) {q : List γ} {a b : γ}
    (hnd : (q.map f).Nodup) (ha : a ∈ q) (hb : b ∈ q) (hf : f a = f b) :
    a = b := by
  obtain ⟨l₁, l₂, hsplit, hn₁, hn₂⟩ := nodup_split f hnd ha
  rw [hsplit] at hb
  rcases List.mem_append.mp hb with h1 | h1
  · exact absurd hf.symm (hn₁ b h1)
  · rcases List.mem_cons.mp h1 with h2 | h2
    · exact h2.symm
    · exact absurd hf.symm (hn₂ b h2)

/-- When the mapped list has no duplicates, filtering by the image of a
member selects exactly that member. -/

theorem nodup_filter_length_one {γ δ : Type} [DecidableEq δ] (f : γ → δ)
    {q : List γ} {a : γ} {b : δ} (hnd : (q.map f).Nodup) (ha : a ∈ q)
    (hfa : f a = b) :
    (q.filter (fun y => decide (f y = b))).length = 1 := by
  obtain ⟨l₁, l₂, hsplit, hn₁, hn₂⟩ := nodup_split f hnd ha
  subst hfa
  rw [hsplit, List.filter_append, List.filter_cons]
  have h₁ : l₁.filter (fun y => decide (f y = f a)) = [] := by
    rw [List.filter_eq_nil_iff]
    intro y hy
    simpa using hn₁ y hy
  have h₂ : l₂.filter (fun y => decide (f y = f a)) = [] := by
    rw [List.filter_eq_nil_iff]
    intro y hy
    simpa using hn₂ y hy
  rw [h₁, h₂, if_pos (by simp)]
  rfl

/-- The removal loop keeps the remaining queue a sublist (order-preserving
subsequence) of the original queue. -/

theorem removeAllEntries_sublist {α : Type} [DecidableEq α] :
    ∀ {sel q q' : List (Entry α)}, removeAllEntries q sel = some q' →
      List.Sublist q' q := by
  intro sel
  induction sel with
  | nil =>
    intro q q' h
    simp only [removeAllEntries, Option.some.injEq] at h
    subst h
    exact List.Sublist.refl _
  | cons x xs ih =>
    intro q q' h
    simp only [removeAllEntries, Option.bind_eq_some] at h
    obtain ⟨q₁, hrem, hrest⟩ := h
    obtain ⟨l₁, l₂, heq, hres, -⟩ := pyRemove_shape hrem
    have hq₁ : List.Sublist q₁ q := by
      rw [heq, hres]
      exact List.Sublist.append_left (List.sublist_cons_self x l₂) l₁
    exact (ih hrest).trans hq₁

theorem allEnqueued_cons {α : Type} (op : Op α) (ops : List (Op α)) :
    allEnqueued (op :: ops) = opItems op ++ allEnqueued ops := by
  cases op <;> simp [allEnqueued, opItems]

theorem queueInv_requestTimestamps {α : Type} {s : MockQueue α}
    (l : List Nat) (hI : QueueInv s) :
    QueueInv { s with requestTimestamps := l } :=
  ⟨hI.qnodup, hI.rnodup, hI.hnodup, hI.rbound, hI.lease_entry, hI.invis_lease⟩

theorem queueInv_init (α : Type) [DecidableEq α]
    (mx ra ramd ratmr mrpm rld : Nat) :
    QueueInv (MockQueue.init α mx ra ramd ratmr mrpm rld) := by
  refine ⟨by simp [MockQueue.init], by simp [MockQueue.init],
    by simp [MockQueue.init], ?_, ?_, ?_⟩
  · intro h hh
    simp [MockQueue.init] at hh
  · intro h hh
    simp [MockQueue.init] at hh
  · intro e he
    simp [MockQueue.init] at he

/-- Expired-lease reclamation preserves the lease-exclusivity invariant. -/

theorem checkHiddenEntryLifetime_inv {α : Type} [DecidableEq α]
    {now : Nat} {s s₁ : MockQueue α}
    (hrec : checkHiddenEntryLifetime now s = some s₁)
    (hI : QueueInv s) : QueueInv s₁ := by
  obtain ⟨s₂, hrec', hsl, hvis, hexp, hkeep, hinvis, hhkeep⟩ :=
    checkHiddenEntryLifetime_spec now s hI.qnodup hI.rnodup
      (fun x hx => ⟨⟨x.entry, false⟩, hI.lease_entry x hx, rfl⟩)
  rw [hrec] at hrec'
  injection hrec' with hrec'
  subst hrec'
  obtain ⟨hfr, hmap, hlen, hsubh, u, hu⟩ := checkHiddenEntryLifetime_frame hrec
  have hq₁nodup : (s₁.queue.map (·.entry)).Nodup := by
    rw [hmap]; exact hI.qnodup
  refine ⟨hq₁nodup, ?_, ?_, ?_, ?_, ?_⟩
  · exact List.Nodup.sublist (hsl.map _) hI.rnodup
  · exact List.Nodup.sublist (hsl.map _) hI.hnodup
  · intro h hh
    rw [frameRest_nextReceipt hfr]
    exact hI.rbound h (hsubh h hh)
  · intro h hh
    have hhs : h ∈ s.hiddenQueue := hsubh h hh
    have hnexp : ¬(now - h.timestamp > s.receiptLifetimeDuration) := by
      intro hc
      exact (hexp h hhs hc).2.1 hh
    refine hkeep _ (hI.lease_entry h hhs) ?_
    intro h' hh' hc' hent
    have hhe : h' = h := nodup_map_mem_eq (·.entry) hI.hnodup hh' hhs hent
    exact hnexp (hhe ▸ hc')
  · intro e he hv
    have hes : e ∈ s.queue := hinvis e he hv
    obtain ⟨h, hh, hent⟩ := hI.invis_lease e hes hv
    by_cases hc : now - h.timestamp > s.receiptLifetimeDuration
    · exfalso
      obtain ⟨htrue, -, -⟩ := hexp h hh hc
      have heq2 : e = ⟨h.entry, true⟩ :=
        nodup_map_mem_eq (·.entry) hq₁nodup he htrue hent.symm
      rw [heq2] at hv
      exact Bool.noConfusion hv
    · exact ⟨h, hhkeep h hh hc, hent⟩

/-- Leasing (the state change of `get_first_x_visible_items`) preserves the
lease-exclusivity invariant. -/

theorem getFirstX_inv {α : Type} [DecidableEq α] (now n : Nat)
    {s : MockQueue α} (hI : QueueInv s) :
    QueueInv (getFirstXVisibleItems now n s).1 := by
  have hflip := markFirstVisible_flipped s.queue n
  have hlenflip : (markFirstVisible n s.queue).2.length ≤
      ((List.range (markFirstVisible n s.queue).2.length).map
        (s.nextReceipt + ·)).length := by simp
  have hlenrec : ((List.range (markFirstVisible n s.queue).2.length).map
      (s.nextReceipt + ·)).length ≤ (markFirstVisible n s.queue).2.length := by
    simp
  have hfst : ((getFirstXVisibleItems now n s).2.map Prod.fst) =
      (markFirstVisible n s.queue).2 := by
    rw [getFirstX_pairs]
    exact List.map_fst_zip _ _ hlenflip
  have hsnd : ((getFirstXVisibleItems now n s).2.map Prod.snd) =
      (List.range (markFirstVisible n s.queue).2.length).map
        (s.nextReceipt + ·) := by
    rw [getFirstX_pairs]
    exact List.map_snd_zip _ _ hlenrec
  have hflipnd : (markFirstVisible n s.queue).2.Nodup := by
    rw [hflip]
    refine List.Nodup.sublist ?_ hI.qnodup
    exact ((List.take_sublist n _).trans (List.filter_sublist _)).map _
  have hflipvis : ∀ a ∈ (markFirstVisible n s.queue).2,
      ∃ e ∈ s.queue, e.visible = true ∧ e.entry = a := by
    intro a ha
    rw [hflip] at ha
    obtain ⟨e, he, hea⟩ := List.mem_map.mp ha
    have he' : e ∈ s.queue.filter (·.visible) := List.mem_of_mem_take he
    obtain ⟨heq, hev⟩ := List.mem_filter.mp he'
    exact ⟨e, heq, by simpa using hev, hea⟩
  have hdisj : ∀ a ∈ s.hiddenQueue.map (·.entry),
      a ∉ (markFirstVisible n s.queue).2 := by
    intro a ha hb
    obtain ⟨h, hh, hhe⟩ := List.mem_map.mp ha
    obtain ⟨e, heq, hev, hea⟩ := hflipvis a hb
    have hb' : (⟨h.entry, false⟩ : Entry α) ∈ s.queue := hI.lease_entry h hh
    have hebe : e = ⟨h.entry, false⟩ :=
      nodup_map_mem_eq (·.entry) hI.qnodup heq hb'
        (by show e.entry = h.entry; rw [hea, hhe])
    rw [hebe] at hev
    simp at hev
  refine ⟨?_, ?_, ?_, ?_, ?_, ?_⟩
  · show ((markFirstVisible n s.queue).1.map (·.entry)).Nodup
    rw [markFirstVisible_map_entry]
    exact hI.qnodup
  · show ((s.hiddenQueue ++ ((getFirstXVisibleItems now n s).2.map
        (fun pr => (⟨pr.1, pr.2, now⟩ : HEntry α)))).map (·.receipt)).Nodup
    rw [List.map_append, List.map_map]
    have hcomp : ((getFirstXVisibleItems now n s).2.map
        ((·.receipt) ∘ (fun pr => (⟨pr.1, pr.2, now⟩ : HEntry α)))) =
        ((getFirstXVisibleItems now n s).2.map Prod.snd) := rfl
    rw [hcomp, hsnd, List.nodup_append]
    refine ⟨hI.rnodup, ?_, ?_⟩
    · refine List.Nodup.map ?_ (List.nodup_range _)
      intro i j hij
      have hij' : s.nextReceipt + i = s.nextReceipt + j := hij
      omega
    · intro x hx hx'
      obtain ⟨h, hh, hhr⟩ := List.mem_map.mp hx
      obtain ⟨i, hi, hir⟩ := List.mem_map.mp hx'
      have hir' : s.nextReceipt + i = x := hir
      have hb := hI.rbound h hh
      omega
  · show ((s.hiddenQueue ++ ((getFirstXVisibleItems now n s).2.map
        (fun pr => (⟨pr.1, pr.2, now⟩ : HEntry α)))).map (·.entry)).Nodup
    rw [List.map_append, List.map_map]
    have hcomp : ((getFirstXVisibleItems now n s).2.map
        ((·.entry) ∘ (fun pr => (⟨pr.1, pr.2, now⟩ : HEntry α)))) =
        ((getFirstXVisibleItems now n s).2.map Prod.fst) := rfl
    rw [hcomp, hfst, List.nodup_append]
    exact ⟨hI.hnodup, hflipnd, fun a ha hb => hdisj a ha hb⟩
  · intro h hh
    rw [getFirstX_hiddenQueue] at hh
    show h.receipt < s.nextReceipt + (markFirstVisible n s.queue).2.length
    rcases List.mem_append.mp hh with h1 | h1
    · have := hI.rbound h h1
      omega
    · obtain ⟨pr, hpr, hprh⟩ := List.mem_map.mp h1
      have hr2 : pr.2 ∈ (getFirstXVisibleItems now n s).2.map Prod.snd :=
        List.mem_map.mpr ⟨pr, hpr, rfl⟩
      rw [hsnd] at hr2
      obtain ⟨i, hi, hir⟩ := List.mem_map.mp hr2
      have hir' : s.nextReceipt + i = pr.2 := hir
      have hik : i < (markFirstVisible n s.queue).2.length := List.mem_range.mp hi
      have hrp : h.receipt = pr.2 := by rw [← hprh]
      omega
  · intro h hh
    rw [getFirstX_hiddenQueue] at hh
    show (⟨h.entry, false⟩ : Entry α) ∈ (markFirstVisible n s.queue).1
    rcases List.mem_append.mp hh with h1 | h1
    · exact markFirstVisible_mem_invisible s.queue n _ (hI.lease_entry h h1) rfl
    · obtain ⟨pr, hpr, hprh⟩ := List.mem_map.mp h1
      have hfl : pr.1 ∈ (markFirstVisible n s.queue).2 := by
        rw [← hfst]
        exact List.mem_map.mpr ⟨pr, hpr, rfl⟩
      have hent : h.entry = pr.1 := by rw [← hprh]
      rw [hent]
      exact markFirstVisible_flip_mem s.queue n pr.1 hfl
  · intro e he hv
    rw [getFirstX_hiddenQueue]
    have he' : e ∈ (markFirstVisible n s.queue).1 := he
    rcases markFirstVisible_mem_cases s.queue n e he' with h1 | ⟨-, -, h3⟩
    · obtain ⟨h, hh, hent⟩ := hI.invis_lease e h1 hv
      exact ⟨h, List.mem_append.mpr (Or.inl hh), hent⟩
    · have h4 : e.entry ∈ (getFirstXVisibleItems now n s).2.map Prod.fst := by
        rw [hfst]; exact h3
      obtain ⟨pr, hpr, hpre⟩ := List.mem_map.mp h4
      refine ⟨⟨pr.1, pr.2, now⟩, ?_, hpre⟩
      exact List.mem_append.mpr (Or.inr (List.mem_map.mpr ⟨pr, hpr, rfl⟩))

/-- The success branch of the delete classification preserves the
lease-exclusivity invariant. -/

theorem deleteSuccess_inv {α : Type} [DecidableEq α] {key : Nat}
    {s₁ : MockQueue α} {h : HEntry α} {q₁ : List (Entry α)}
    {hq₁ : List (HEntry α)} (hI : QueueInv s₁)
    (hq : pyRemove (⟨h.entry, false⟩ : Entry α) s₁.queue = some q₁)
    (hhq : pyRemove h s₁.hiddenQueue = some hq₁) :
    QueueInv { s₁ with queue := q₁, hiddenQueue := hq₁,
                       deletedUrls := s₁.deletedUrls ++ [key] } := by
  have hmemh : h ∈ s₁.hiddenQueue := by
    obtain ⟨l₁, l₂, heq, -, -⟩ := pyRemove_shape hhq
    rw [heq]
    exact List.mem_append.mpr (Or.inr (List.mem_cons_self _ _))
  have hndh : s₁.hiddenQueue.Nodup := List.Nodup.of_map _ hI.rnodup
  have hndq : s₁.queue.Nodup := List.Nodup.of_map _ hI.qnodup
  refine ⟨?_, ?_, ?_, ?_, ?_, ?_⟩
  · obtain ⟨m₁, m₂, hm, hm'⟩ := pyRemove_map (·.entry) hq
    show (q₁.map (·.entry)).Nodup
    rw [hm']
    exact nodup_of_append_cons_append (hm ▸ hI.qnodup)
  · obtain ⟨m₁, m₂, hm, hm'⟩ := pyRemove_map (·.receipt) hhq
    show (hq₁.map (·.receipt)).Nodup
    rw [hm']
    exact nodup_of_append_cons_append (hm ▸ hI.rnodup)
  · obtain ⟨m₁, m₂, hm, hm'⟩ := pyRemove_map (·.entry) hhq
    show (hq₁.map (·.entry)).Nodup
    rw [hm']
    exact nodup_of_append_cons_append (hm ▸ hI.hnodup)
  · intro x hx
    exact hI.rbound x (pyRemove_subset hhq x hx)
  · intro h' hh'
    have hh's : h' ∈ s₁.hiddenQueue := pyRemove_subset hhq h' hh'
    have hb : (⟨h'.entry, false⟩ : Entry α) ∈ s₁.queue := hI.lease_entry h' hh's
    by_cases hne : (⟨h'.entry, false⟩ : Entry α) = (⟨h.entry, false⟩ : Entry α)
    · exfalso
      have hent : h'.entry = h.entry := congrArg Entry.entry hne
      have hhe : h' = h := nodup_map_mem_eq (·.entry) hI.hnodup hh's hmemh hent
      rw [hhe] at hh'
      exact pyRemove_not_mem_self hhq hndh hh'
    · exact (pyRemove_mem_of_ne hq hne).mpr hb
  · intro e he hv
    have hes : e ∈ s₁.queue := pyRemove_subset hq e he
    obtain ⟨h'', hh'', hent⟩ := hI.invis_lease e hes hv
    by_cases hne : h'' = h
    · exfalso
      have hee : e = ⟨h.entry, false⟩ := by
        have h1 : h.entry = e.entry := by rw [← hne]; exact hent
        cases e with
        | mk a v =>
          have h2 : v = false := hv
          have h3 : h.entry = a := h1
          rw [h2, h3]
      rw [hee] at he
      exact pyRemove_not_mem_self hq hndq he
    · exact ⟨h'', (pyRemove_mem_of_ne hhq hne).mpr hh'', hent⟩

/-- Enqueueing fresh, pairwise-distinct payloads preserves the
lease-exclusivity invariant. -/

theorem addToQueue_inv {α : Type} [DecidableEq α] {s : MockQueue α}
    (items : List α) (hI : QueueInv s) (hnd : items.Nodup)
    (hfresh : ∀ a ∈ items, a ∉ s.queue.map (·.entry)) :
    QueueInv (addToQueue s items) := by
  have hmm : ((items.map (fun a => (⟨a, true⟩ : Entry α))).map (·.entry)) =
      items := by
    rw [List.map_map]
    have hcongr : ((·.entry) ∘ fun a => (⟨a, true⟩ : Entry α)) = id := rfl
    rw [hcongr, List.map_id]
  refine ⟨?_, hI.rnodup, hI.hnodup, ?_, ?_, ?_⟩
  · show ((s.queue ++
        items.map (fun a => (⟨a, true⟩ : Entry α))).map (·.entry)).Nodup
    rw [List.map_append, hmm, List.nodup_append]
    exact ⟨hI.qnodup, hnd, fun a ha hb => hfresh a hb ha⟩
  · intro h hh
    show h.receipt < s.nextReceipt
    exact hI.rbound h hh
  · intro h hh
    show (⟨h.entry, false⟩ : Entry α) ∈
        s.queue ++ items.map (fun a => (⟨a, true⟩ : Entry α))
    exact List.mem_append.mpr (Or.inl (hI.lease_entry h hh))
  · intro e he hv
    rcases List.mem_append.mp he with h1 | h1
    · exact hI.invis_lease e h1 hv
    · exfalso
      obtain ⟨a, -, hae⟩ := List.mem_map.mp h1
      rw [← hae] at hv
      simp at hv

/-- A single engine step preserves the lease-exclusivity invariant when the
submitted payloads (if any) are pairwise distinct and fresh; the resulting
queue payloads all come from the old queue or from the submitted items. -/

theorem step_inv {α : Type} [DecidableEq α] {op : Op α}
    {s s' : MockQueue α} {out : List α} {rem : Nat}
    (h : step op s = some (s', out, rem)) (hI : QueueInv s)
    (hnd : (opItems op).Nodup)
    (hfresh : ∀ a ∈ opItems op, a ∉ s.queue.map (·.entry)) :
    QueueInv s' ∧
      (∀ a ∈ s'.queue.map (·.entry),
        a ∈ s.queue.map (·.entry) ∨ a ∈ opItems op) := by
  cases op with
  | enqueue items =>
    simp only [step, Option.some.injEq, Prod.mk.injEq] at h
    obtain ⟨hs', -, -⟩ := h
    subst hs'
    refine ⟨addToQueue_inv items hI hnd hfresh, ?_⟩
    intro a ha
    show a ∈ s.queue.map (·.entry) ∨ a ∈ opItems (Op.enqueue items)
    have ha' : a ∈ (s.queue ++
        items.map (fun b => (⟨b, true⟩ : Entry α))).map (·.entry) := ha
    rw [List.map_append] at ha'
    rcases List.mem_append.mp ha' with h1 | h1
    · exact Or.inl h1
    · right
      obtain ⟨e, he, hea⟩ := List.mem_map.mp h1
      obtain ⟨b, hb, hbe⟩ := List.mem_map.mp he
      show a ∈ items
      rw [← hea, ← hbe]
      exact hb
  | get now =>
    simp only [step, Option.map_eq_some'] at h
    obtain ⟨⟨s₂, resp⟩, hop, heq⟩ := h
    simp only [Prod.mk.injEq] at heq
    obtain ⟨hs', -, -⟩ := heq
    subst hs'
    have hop' := hop
    simp only [wireqGetOperation, Option.bind_eq_some] at hop'
    obtain ⟨s₁, hrec, -⟩ := hop'
    have hI₁ := checkHiddenEntryLifetime_inv hrec hI
    obtain ⟨-, hmap, -, -, -⟩ := checkHiddenEntryLifetime_frame hrec
    by_cases hth : windowCount now s₁ > s₁.maxRequestsPerMinute
    · have hthr := wireqGetOperation_throttled hrec hth
      rw [hop] at hthr
      injection hthr with hthr
      have hs2 : s₂ = _ := congrArg Prod.fst hthr
      subst hs2
      refine ⟨queueInv_requestTimestamps _ hI₁, ?_⟩
      intro a ha
      left
      rw [← hmap]
      exact ha
    · have hok := wireqGetOperation_ok hrec hth
      rw [hop] at hok
      injection hok with hok
      have hs2 : s₂ = _ := congrArg Prod.fst hok
      subst hs2
      refine ⟨getFirstX_inv now s₁.maxItemsReturned
        (queueInv_requestTimestamps _ hI₁), ?_⟩
      intro a ha
      left
      rw [← hmap]
      have ha' : a ∈
          (markFirstVisible s₁.maxItemsReturned s₁.queue).1.map (·.entry) := ha
      rw [markFirstVisible_map_entry] at ha'
      exact ha'
  | dequeue now =>
    simp only [step, Option.map_eq_some'] at h
    obtain ⟨⟨s₂, resp⟩, hop, heq⟩ := h
    simp only [Prod.mk.injEq] at heq
    obtain ⟨hs', -, -⟩ := heq
    subst hs'
    have hop' := hop
    simp only [wireqDequeueOperation, Option.bind_eq_some] at hop'
    obtain ⟨s₁, hrec, -⟩ := hop'
    have hI₁ := checkHiddenEntryLifetime_inv hrec hI
    obtain ⟨-, hmap, -, -, -⟩ := checkHiddenEntryLifetime_frame hrec
    by_cases hth : windowCount now s₁ > s₁.maxRequestsPerMinute
    · have hthr := wireqDequeueOperation_throttled hrec hth
      rw [hop] at hthr
      injection hthr with hthr
      have hs2 : s₂ = _ := congrArg Prod.fst hthr
      subst hs2
      refine ⟨queueInv_requestTimestamps _ hI₁, ?_⟩
      intro a ha
      left
      rw [← hmap]
      exact ha
    · obtain ⟨q₂, hok, hvv, hinv, hlen, hmem, hra⟩ :=
        wireqDequeueOperation_ok hrec hth
      rw [hop] at hok
      injection hok with hok
      have hs2 : s₂ = _ := congrArg Prod.fst hok
      subst hs2
      have hsub : List.Sublist q₂ s₁.queue := removeAllEntries_sublist hra
      constructor
      · refine ⟨?_, hI₁.rnodup, hI₁.hnodup, hI₁.rbound, ?_, ?_⟩
        · show (q₂.map (·.entry)).Nodup
          exact List.Nodup.sublist (hsub.map _) hI₁.qnodup
        · intro h' hh'
          show (⟨h'.entry, false⟩ : Entry α) ∈ q₂
          have hb := hI₁.lease_entry h' hh'
          have hbf : (⟨h'.entry, false⟩ : Entry α) ∈
              s₁.queue.filter (fun e => !e.visible) :=
            List.mem_filter.mpr ⟨hb, by simp⟩
          rw [← hinv] at hbf
          exact (List.mem_filter.mp hbf).1
        · intro e he hv
          exact hI₁.invis_lease e (hmem e he) hv
      · intro a ha
        left
        rw [← hmap]
        obtain ⟨e, he, hea⟩ := List.mem_map.mp ha
        exact List.mem_map.mpr ⟨e, hmem e he, hea⟩
  | delete now key =>
    simp only [step, Option.map_eq_some'] at h
    obtain ⟨⟨s₂, o⟩, hop, heq⟩ := h
    simp only [Prod.mk.injEq] at heq
    obtain ⟨hs', -, -⟩ := heq
    subst hs'
    simp only [wireqDeleteOperation, Option.bind_eq_some] at hop
    obtain ⟨s₁, hrec, hcl⟩ := hop
    have hI₁ := checkHiddenEntryLifetime_inv hrec hI
    obtain ⟨-, hmap, -, -, -⟩ := checkHiddenEntryLifetime_frame hrec
    simp only [deleteClassified] at hcl
    split at hcl
    · simp only [Option.some.injEq, Prod.mk.injEq] at hcl
      obtain ⟨hs', -⟩ := hcl
      subst hs'
      exact ⟨hI₁, fun a ha => Or.inl (hmap ▸ ha)⟩
    · split at hcl
      · simp only [Option.some.injEq, Prod.mk.injEq] at hcl
        obtain ⟨hs', -⟩ := hcl
        subst hs'
        exact ⟨hI₁, fun a ha => Or.inl (hmap ▸ ha)⟩
      · split at hcl
        · simp only [Option.some.injEq, Prod.mk.injEq] at hcl
          obtain ⟨hs', -⟩ := hcl
          subst hs'
          exact ⟨hI₁, fun a ha => Or.inl (hmap ▸ ha)⟩
        · simp only [Option.bind_eq_some, Option.map_eq_some'] at hcl
          obtain ⟨hfound, hfind, q₁, hq₁, hq₂, hrem2, hpair⟩ := hcl
          rw [Prod.mk.injEq] at hpair
          obtain ⟨hs', -⟩ := hpair
          subst hs'
          refine ⟨deleteSuccess_inv hI₁ hq₁ hrem2, ?_⟩
          intro a ha
          left
          rw [← hmap]
          obtain ⟨e, he, hea⟩ := List.mem_map.mp ha
          exact List.mem_map.mpr ⟨e, pyRemove_subset hq₁ e he, hea⟩

/-- Running any operation sequence whose enqueued payloads are fresh with
respect to `seen` and pairwise distinct preserves the lease-exclusivity
invariant. -/

theorem run_inv {α : Type} [DecidableEq α] :
    ∀ (ops : List (Op α)) (seen : List α) (s s' : MockQueue α)
      (outs : List (List α)) (rem : Nat),
      (seen ++ allEnqueued ops).Nodup →
      (∀ a ∈ s.queue.map (·.entry), a ∈ seen) →
      QueueInv s →
      run s ops = some (s', outs, rem) →
      QueueInv s' := by
  intro ops
  induction ops with
  | nil =>
    intro seen s s' outs rem _ _ hI h
    simp only [run, Option.some.injEq, Prod.mk.injEq] at h
    obtain ⟨hs', -, -⟩ := h
    subst hs'
    exact hI
  | cons op ops ih =>
    intro seen s s' outs rem hn hseen hI h
    simp only [run, Option.bind_eq_some, Option.map_eq_some'] at h
    obtain ⟨⟨s₁, out₁, rem₁⟩, hstep, ⟨s₂, outs₂, rem₂⟩, hrun, heq⟩ := h
    simp only [Prod.mk.injEq] at heq
    obtain ⟨hs', -, -⟩ := heq
    subst hs'
    have hn' : (seen ++ (opItems op ++ allEnqueued ops)).Nodup := by
      rw [allEnqueued_cons] at hn
      exact hn
    have hnd : (opItems op).Nodup :=
      List.Nodup.of_append_left (List.Nodup.of_append_right hn')
    have hdisj : List.Disjoint seen (opItems op ++ allEnqueued ops) :=
      (List.nodup_append.mp hn').2.2
    have hfresh : ∀ a ∈ opItems op, a ∉ s.queue.map (·.entry) := by
      intro a ha hq
      exact hdisj (hseen a hq) (List.mem_append.mpr (Or.inl ha))
    obtain ⟨hI₁, hprov⟩ := step_inv hstep hI hnd hfresh
    refine ih (seen ++ opItems op) s₁ s₂ outs₂ rem₂ ?_ ?_ hI₁ hrun
    · rw [List.append_assoc]
      exact hn'
    · intro a ha
      rcases hprov a ha with h1 | h1
      · exact List.mem_append.mpr (Or.inl (hseen a h1))
      · exact List.mem_append.mpr (Or.inr h1)

/-- C8: reclamation and successful delete locate the queue entry belonging
to a lease by payload equality; on every run whose enqueued payloads are
pairwise distinct this keeps the lease-exclusivity invariant at each
reachable state: queue payloads stay pairwise distinct, every active lease
is backed by the queue entry holding its payload in the invisible state
(the element the delete success branch removes and reclamation reverts),
and a queue entry is invisible exactly when exactly one active lease
references its payload. -/

theorem lease_exclusivity_invariant {α : Type} [DecidableEq α]
    (mx ra ramd ratmr mrpm rld : Nat) (ops : List (Op α))
    (s : MockQueue α) (outs : List (List α)) (rem : Nat)
    (hnd : (allEnqueued ops).Nodup)
    (hrun : run (MockQueue.init α mx ra ramd ratmr mrpm rld) ops =
      some (s, outs, rem)) :
    (s.queue.map (·.entry)).Nodup ∧
    (∀ h ∈ s.hiddenQueue, (⟨h.entry, false⟩ : Entry α) ∈ s.queue) ∧
    (∀ e ∈ s.queue, (e.visible = false ↔
      (s.hiddenQueue.filter (fun h => decide (h.entry = e.entry))).length
        = 1)) := by
  have hI : QueueInv s :=
    run_inv ops [] (MockQueue.init α mx ra ramd ratmr mrpm rld) s outs rem
      (by simpa using hnd)
      (by intro a ha; simp [MockQueue.init] at ha)
      (queueInv_init α mx ra ramd ratmr mrpm rld) hrun
  refine ⟨hI.qnodup, hI.lease_entry, ?_⟩
  intro e he
  constructor
  · intro hv
    obtain ⟨h, hh, hent⟩ := hI.invis_lease e he hv
    exact nodup_filter_length_one (·.entry) hI.hnodup hh hent
  · intro hlen
    cases hft : s.hiddenQueue.filter (fun h => decide (h.entry = e.entry)) with
    | nil =>
      rw [hft] at hlen
      simp at hlen
    | cons h t =>
      have hmemf : h ∈ s.hiddenQueue.filter
          (fun h' => decide (h'.entry = e.entry)) := by
        rw [hft]
        exact List.mem_cons_self _ _
      obtain ⟨hh, hhe⟩ := List.mem_filter.mp hmemf
      have hent : h.entry = e.entry := by simpa using hhe
      have hb : (⟨h.entry, false⟩ : Entry α) ∈ s.queue := hI.lease_entry h hh
      have hee : e = ⟨h.entry, false⟩ :=
        nodup_map_mem_eq (·.entry) hI.qnodup he hb
          (by show e.entry = h.entry; rw [hent])
      rw [hee]

theorem lease_exclusivity_invariant_witness :
    (allEnqueued c8ops).Nodup ∧
    ((c8res.1.queue.map (·.entry)).Nodup ∧
      (∀ h ∈ c8res.1.hiddenQueue,
        (⟨h.entry, false⟩ : Entry Nat) ∈ c8res.1.queue) ∧
      (∀ e ∈ c8res.1.queue, (e.visible = false ↔
        (c8res.1.hiddenQueue.filter
          (fun h => decide (h.entry = e.entry))).length = 1))) :=
  ⟨by decide,
   lease_exclusivity_invariant 10 100 10 360 30 200 c8ops c8res.1 c8res.2.1
     c8res.2.2 (by decide) (by decide)⟩
